import Mathlib

namespace FusionGuard

/-! Shallow embedding of the FusionGuard trainer core: `labeling.py`,
`eval.py`, `features.py` and `calibrate.py`, together with the library
calls they make (pandas `rolling`/`ewm`/`diff`/`assign`, numpy
`argmin`/`argmax`/`rfftfreq`, sklearn `roc_curve` and
`IsotonicRegression`), the latter modelled from their documented
behaviour.  Machine floats are modelled as exact rationals; a
`float("inf")` value is modelled with `WithTop`. -/

/-- A `time_to_disruption` cell: a rational, or `⊤` for `float("inf")`. -/
abbrev QI := WithTop ℚ

/-! ## labeling.py -/

/-- Column keys: pandas column names.  The f-string name `label_h{h}`
is represented by the constructor `labelH h`, any other name by `str`
(two keys collide exactly when the underlying strings would). -/
inductive ColKey
  | str (s : String)
  | labelH (h : ℤ)
deriving DecidableEq

abbrev Col := List QI

abbrev Table := List (ColKey × Col)

/-- `df[name]` (the empty column if the name is absent). -/
def getCol (df : Table) (k : ColKey) : Col :=
  match df with
  | [] => []
  | (k', c) :: rest => if k' = k then c else getCol rest k

/-- Keyed update: replace the value at the first occurrence of an
existing key in place, else append — the shared behaviour of a Python
dict insert and of `DataFrame.assign` for one column. -/
def setCol (df : Table) (k : ColKey) (c : Col) : Table :=
  match df with
  | [] => [(k, c)]
  | (k', c') :: rest => if k' = k then (k, c) :: rest else (k', c') :: setCol rest k c

/-- `(df["time_to_disruption"] <= h).astype(int)` for one horizon. -/
def labelCol (ttd : Col) (h : ℤ) : Col :=
  ttd.map (fun t => if t ≤ ((h : ℚ) : QI) then (1 : QI) else 0)

def ttdKey : ColKey := .str "time_to_disruption"

/-- The dict built by the loop `for h in horizons: labels[f"label_h{h}"] = ...`. -/
def labelsDict (ttd : Col) (horizons : List ℤ) : Table :=
  horizons.foldl (fun acc h => setCol acc (.labelH h) (labelCol ttd h)) []

/-- `label_windows` from `labeling.py`: build the dict of label
columns, then `df.assign(**labels)`. -/
def label_windows (df : Table) (horizons : List ℤ) : Table :=
  (labelsDict (getCol df ttdKey) horizons).foldl (fun acc p => setCol acc p.1 p.2) df

theorem getCol_setCol_self (df : Table) (k : ColKey) (c : Col) :
    getCol (setCol df k c) k = c := by
  induction df with
  | nil => simp [setCol, getCol]
  | cons p rest ih =>
      obtain ⟨k', c'⟩ := p
      by_cases hk : k' = k
      · simp [setCol, hk, getCol]
      · simp [setCol, hk, getCol, ih]

theorem getCol_setCol_ne (df : Table) (k k' : ColKey) (c : Col) (h : k' ≠ k) :
    getCol (setCol df k' c) k = getCol df k := by
  induction df with
  | nil => simp [setCol, getCol, h]
  | cons p rest ih =>
      obtain ⟨k₀, c₀⟩ := p
      by_cases hk : k₀ = k'
      · subst hk
        simp [setCol, getCol, h]
      · by_cases hk2 : k₀ = k
        · subst hk2
          simp [setCol, hk, getCol, Ne.symm h]
        · simp [setCol, hk, getCol, hk2, ih]

theorem mem_setCol (df : Table) (k : ColKey) (c : Col) (p : ColKey × Col)
    (hp : p ∈ setCol df k c) : p = (k, c) ∨ p ∈ df := by
  induction df with
  | nil => simpa [setCol] using hp
  | cons q rest ih =>
      obtain ⟨k', c'⟩ := q
      by_cases hk : k' = k
      · simp [setCol, hk] at hp
        rcases hp with hp | hp
        · exact Or.inl hp
        · exact Or.inr (List.mem_cons_of_mem _ hp)
      · simp [setCol, hk] at hp
        rcases hp with hp | hp
        · exact Or.inr (by simp [hp])
        · rcases ih hp with h | h
          · exact Or.inl h
          · exact Or.inr (List.mem_cons_of_mem _ h)

theorem mem_setCol_of_mem (df : Table) (k : ColKey) (c : Col) (p : ColKey × Col)
    (hp : p ∈ df) (hne : p.1 ≠ k) : p ∈ setCol df k c := by
  induction df with
  | nil => simp at hp
  | cons q rest ih =>
      obtain ⟨k', c'⟩ := q
      rcases List.mem_cons.mp hp with h | h
      · subst h
        by_cases hk : k' = k
        · exact absurd hk hne
        · simp [setCol, hk]
      · by_cases hk : k' = k
        · simp [setCol, hk]
          exact Or.inr h
        · simp [setCol, hk]
          exact Or.inr (ih h)

theorem setCol_key_mem (df : Table) (k : ColKey) (c : Col) :
    ∃ p ∈ setCol df k c, p.1 = k := by
  induction df with
  | nil => exact ⟨(k, c), by simp [setCol]⟩
  | cons q rest ih =>
      obtain ⟨k', c'⟩ := q
      by_cases hk : k' = k
      · exact ⟨(k, c), by simp [setCol, hk]⟩
      · obtain ⟨p, hp, hpk⟩ := ih
        exact ⟨p, by simp [setCol, hk, hp], hpk⟩

theorem getCol_foldl_setCol_of_not_mem (ps : List (ColKey × Col)) (df : Table) (k : ColKey)
    (h : ∀ p ∈ ps, p.1 ≠ k) :
    getCol (ps.foldl (fun acc p => setCol acc p.1 p.2) df) k = getCol df k := by
  induction ps generalizing df with
  | nil => rfl
  | cons q rest ih =>
      simp only [List.foldl_cons]
      rw [ih _ (fun p hp => h p (List.mem_cons_of_mem _ hp))]
      exact getCol_setCol_ne df k q.1 q.2 (h q (List.mem_cons_self _ _))

theorem getCol_foldl_setCol_of_forall (ps : List (ColKey × Col)) (df : Table) (k : ColKey)
    (v : Col) (hmem : ∃ p ∈ ps, p.1 = k) (hval : ∀ p ∈ ps, p.1 = k → p.2 = v) :
    getCol (ps.foldl (fun acc p => setCol acc p.1 p.2) df) k = v := by
  induction ps generalizing df with
  | nil => simp at hmem
  | cons q rest ih =>
      simp only [List.foldl_cons]
      by_cases hrest : ∃ p ∈ rest, p.1 = k
      · exact ih _ hrest (fun p hp hpk => hval p (List.mem_cons_of_mem _ hp) hpk)
      · have hq : q.1 = k := by
          rcases hmem with ⟨p, hp, hpk⟩
          rcases List.mem_cons.mp hp with h | h
          · rw [← h]; exact hpk
          · exact absurd ⟨p, h, hpk⟩ hrest
        rw [getCol_foldl_setCol_of_not_mem rest _ k
            (fun p hp => fun hc => hrest ⟨p, hp, hc⟩)]
        rw [hq, getCol_setCol_self]
        exact hval q (List.mem_cons_self _ _) hq

theorem mem_foldl_setCol (ps : List (ColKey × Col)) (df : Table) (p : ColKey × Col)
    (hp : p ∈ ps.foldl (fun acc q => setCol acc q.1 q.2) df) : p ∈ df ∨ p ∈ ps := by
  induction ps generalizing df with
  | nil => exact Or.inl hp
  | cons q rest ih =>
      simp only [List.foldl_cons] at hp
      rcases ih _ hp with h | h
      · rcases mem_setCol df q.1 q.2 p h with h2 | h2
        · exact Or.inr (by simp [h2])
        · exact Or.inl h2
      · exact Or.inr (List.mem_cons_of_mem _ h)

theorem mem_labelsDict (ttd : Col) (hs : List ℤ) (p : ColKey × Col)
    (hp : p ∈ labelsDict ttd hs) : ∃ h ∈ hs, p = (.labelH h, labelCol ttd h) := by
  have aux : ∀ (l : List ℤ) (acc : Table),
      (∀ q ∈ acc, ∃ h ∈ hs, q = (ColKey.labelH h, labelCol ttd h)) →
      (∀ h ∈ l, h ∈ hs) →
      ∀ q ∈ l.foldl (fun acc h => setCol acc (.labelH h) (labelCol ttd h)) acc,
        ∃ h ∈ hs, q = (ColKey.labelH h, labelCol ttd h) := by
    intro l
    induction l with
    | nil => intro acc hacc _ q hq; exact hacc q hq
    | cons h₀ rest ih =>
        intro acc hacc hsub q hq
        simp only [List.foldl_cons] at hq
        refine ih _ ?_ (fun h hh => hsub h (List.mem_cons_of_mem _ hh)) q hq
        intro r hr
        rcases mem_setCol acc _ _ r hr with h2 | h2
        · exact ⟨h₀, hsub h₀ (List.mem_cons_self _ _), h2⟩
        · exact hacc r h2
  exact aux hs [] (by simp) (fun h hh => hh) p hp

theorem labelsDict_key_mem (ttd : Col) (hs : List ℤ) (h : ℤ) (hmem : h ∈ hs) :
    ∃ p ∈ labelsDict ttd hs, p.1 = ColKey.labelH h := by
  have aux : ∀ (l : List ℤ) (acc : Table),
      ((∃ p ∈ acc, p.1 = ColKey.labelH h) ∨ h ∈ l) →
      ∃ p ∈ l.foldl (fun acc h => setCol acc (.labelH h) (labelCol ttd h)) acc,
        p.1 = ColKey.labelH h := by
    intro l
    induction l with
    | nil =>
        intro acc hacc
        rcases hacc with h2 | h2
        · exact h2
        · simp at h2
    | cons h₀ rest ih =>
        intro acc hacc
        simp only [List.foldl_cons]
        by_cases hh : h₀ = h
        · subst hh
          refine ih _ (Or.inl ?_)
          exact setCol_key_mem acc _ _
        · rcases hacc with h2 | h2
          · refine ih _ (Or.inl ?_)
            rcases h2 with ⟨p, hp, hpk⟩
            refine ⟨p, mem_setCol_of_mem acc _ _ p hp ?_, hpk⟩
            rw [hpk]
            intro hc
            exact hh (ColKey.labelH.inj hc).symm
          · rcases List.mem_cons.mp h2 with h3 | h3
            · exact absurd h3.symm hh
            · exact ih _ (Or.inr h3)
  exact aux hs [] (Or.inr hmem)

/-- The label column that `label_windows` produces for a requested horizon. -/
theorem label_windows_getCol (df : Table) (hs : List ℤ) (h : ℤ) (hmem : h ∈ hs) :
    getCol (label_windows df hs) (.labelH h) = labelCol (getCol df ttdKey) h := by
  unfold label_windows
  apply getCol_foldl_setCol_of_forall
  · exact labelsDict_key_mem _ hs h hmem
  · intro p hp hpk
    obtain ⟨h', hh', hp'⟩ := mem_labelsDict _ hs p hp
    rw [hp'] at hpk ⊢
    have : h' = h := ColKey.labelH.inj hpk
    rw [this]

/-- Columns whose key is not a requested label name pass through unchanged. -/
theorem label_windows_frame (df : Table) (hs : List ℤ) (k : ColKey)
    (hk : ∀ h ∈ hs, k ≠ ColKey.labelH h) :
    getCol (label_windows df hs) k = getCol df k := by
  unfold label_windows
  apply getCol_foldl_setCol_of_not_mem
  intro p hp
  obtain ⟨h', hh', hp'⟩ := mem_labelsDict _ hs p hp
  rw [hp']
  exact fun hc => hk h' hh' hc.symm

/-- Every column of the output is a column of the input or a label column
of a requested horizon. -/
theorem label_windows_keys (df : Table) (hs : List ℤ) (p : ColKey × Col)
    (hp : p ∈ label_windows df hs) :
    p ∈ df ∨ ∃ h ∈ hs, p.1 = ColKey.labelH h := by
  unfold label_windows at hp
  rcases mem_foldl_setCol _ df p hp with h | h
  · exact Or.inl h
  · obtain ⟨h', hh', hp'⟩ := mem_labelsDict _ hs p h
    exact Or.inr ⟨h', hh', by rw [hp']⟩

/-- Shorthand for a finite (non-infinite) table cell. -/
def fq (q : ℚ) : QI := (q : QI)

/-- C3: for every input table with a time-to-disruption column and every
horizon `h` in the caller-supplied list, `label_windows` emits a column
`label_h{h}` whose value at row `i` is `1` iff `time_to_disruption[i] ≤ h`;
in particular for times `[10, 60, 210]` and horizons `[50, 200]` the
outputs are `label_h50 = [1,0,0]` and `label_h200 = [1,1,0]`. -/
theorem c3_labeler_definition (df : Table) (hs : List ℤ) (h : ℤ) (hmem : h ∈ hs) :
    getCol (label_windows df hs) (.labelH h)
        = (getCol df ttdKey).map (fun t => if t ≤ ((h : ℚ) : QI) then (1 : QI) else 0) ∧
    (∀ t : QI, (if t ≤ ((h : ℚ) : QI) then (1 : QI) else 0) = 1 ↔ t ≤ ((h : ℚ) : QI)) ∧
    getCol (label_windows [(ttdKey, [fq 10, fq 60, fq 210])] [50, 200]) (.labelH 50)
        = [1, 0, 0] ∧
    getCol (label_windows [(ttdKey, [fq 10, fq 60, fq 210])] [50, 200]) (.labelH 200)
        = [1, 1, 0] := by
  refine ⟨label_windows_getCol df hs h hmem, ?_, by decide, by decide⟩
  intro t
  by_cases ht : t ≤ ((h : ℚ) : QI)
  · simp [ht]
  · simp [ht]

theorem c3_labeler_definition_witness :
    (50 : ℤ) ∈ ([50, 200] : List ℤ) ∧
    (getCol (label_windows [] [50, 200]) (.labelH 50)
        = (getCol ([] : Table) ttdKey).map
            (fun t => if t ≤ (((50 : ℤ) : ℚ) : QI) then (1 : QI) else 0) ∧
     (∀ t : QI, (if t ≤ (((50 : ℤ) : ℚ) : QI) then (1 : QI) else 0) = 1
        ↔ t ≤ (((50 : ℤ) : ℚ) : QI)) ∧
     getCol (label_windows [(ttdKey, [fq 10, fq 60, fq 210])] [50, 200]) (.labelH 50)
        = [1, 0, 0] ∧
     getCol (label_windows [(ttdKey, [fq 10, fq 60, fq 210])] [50, 200]) (.labelH 200)
        = [1, 1, 0]) :=
  ⟨by decide, c3_labeler_definition [] [50, 200] 50 (by decide)⟩

/-- C8: for every input table, every row `i`, and horizons `h₁ < h₂` both in
the supplied list, a `1` in `label_h{h₁}` at row `i` forces a `1` in
`label_h{h₂}` at row `i`. -/
theorem c8_labeler_monotonicity (df : Table) (hs : List ℤ) (h₁ h₂ : ℤ)
    (hm1 : h₁ ∈ hs) (hm2 : h₂ ∈ hs) (hlt : h₁ < h₂) (i : ℕ)
    (hpos : (getCol (label_windows df hs) (.labelH h₁)).get? i = some 1) :
    (getCol (label_windows df hs) (.labelH h₂)).get? i = some 1 := by
  rw [label_windows_getCol df hs h₁ hm1] at hpos
  rw [label_windows_getCol df hs h₂ hm2]
  unfold labelCol at hpos ⊢
  rw [List.get?_map] at hpos ⊢
  cases hget : (getCol df ttdKey).get? i with
  | none => rw [hget] at hpos; simp at hpos
  | some t =>
      rw [hget] at hpos
      simp only [Option.map_some'] at hpos ⊢
      by_cases ht : t ≤ ((h₁ : ℚ) : QI)
      · have ht2 : t ≤ ((h₂ : ℚ) : QI) := by
          refine le_trans ht ?_
          exact_mod_cast le_of_lt hlt
        simp [ht2]
      · simp [ht] at hpos

theorem c8_labeler_monotonicity_witness :
    ((50 : ℤ) ∈ ([50, 200] : List ℤ) ∧ (200 : ℤ) ∈ ([50, 200] : List ℤ) ∧
      (50 : ℤ) < 200 ∧
      (getCol (label_windows [(ttdKey, [fq 10])] [50, 200]) (.labelH 50)).get? 0
        = some 1) ∧
    (getCol (label_windows [(ttdKey, [fq 10])] [50, 200]) (.labelH 200)).get? 0
        = some 1 :=
  ⟨⟨by decide, by decide, by decide, by decide⟩,
    c8_labeler_monotonicity [(ttdKey, [fq 10])] [50, 200] 50 200
      (by decide) (by decide) (by decide) 0 (by decide)⟩

/-- C9 counterexample: a pre-existing column named `label_h50` is
overwritten by `label_windows` when horizon 50 is requested, so the claim
that every pre-existing column is unchanged fails. -/
theorem c9_frame_counterexample :
    getCol ([(ttdKey, [fq 10]), (.labelH 50, [fq 5])] : Table) (.labelH 50) = [fq 5] ∧
    getCol (label_windows [(ttdKey, [fq 10]), (.labelH 50, [fq 5])] [50]) (.labelH 50)
        = [1] := by
  constructor <;> decide

/-- C9 amended: every pre-existing column whose name is not `label_h{h}`
for a requested horizon `h` is unchanged, and every column of the output
is either a column of the input or a `label_h{h}` column for some
requested horizon. -/
theorem c9_frame_amended (df : Table) (hs : List ℤ) (k : ColKey)
    (hk : ∀ h ∈ hs, k ≠ ColKey.labelH h) :
    getCol (label_windows df hs) k = getCol df k ∧
    ∀ p ∈ label_windows df hs, p ∈ df ∨ ∃ h ∈ hs, p.1 = ColKey.labelH h :=
  ⟨label_windows_frame df hs k hk, label_windows_keys df hs⟩

theorem c9_frame_amended_witness :
    (∀ h ∈ ([50] : List ℤ), ttdKey ≠ ColKey.labelH h) ∧
    (getCol (label_windows [(ttdKey, [fq 10])] [50]) ttdKey
        = getCol [(ttdKey, [fq 10])] ttdKey ∧
     ∀ p ∈ label_windows [(ttdKey, [fq 10])] [50],
        p ∈ ([(ttdKey, [fq 10])] : Table) ∨ ∃ h ∈ ([50] : List ℤ), p.1 = ColKey.labelH h) :=
  ⟨by decide, c9_frame_amended [(ttdKey, [fq 10])] [50] ttdKey (by decide)⟩

/-! ## eval.py : calibration_error (Expected Calibration Error) -/

/-- One loop iteration of `calibration_error`: the contribution of the
half-open bin `(lo, hi]`.  `prop_in_bin = in_bin.mean()`,
`accuracy_in_bin = y_true[in_bin].mean()`,
`avg_confidence_in_bin = y_pred[in_bin].mean()`. -/
def eceTerm (pairs : List (ℚ × ℤ)) (total : ℚ) (lo hi : ℚ) : ℚ :=
  let inb := pairs.filter (fun p => decide (lo < p.1 ∧ p.1 ≤ hi))
  let prop : ℚ := (inb.length : ℚ) / total
  if 0 < prop then
    let acc : ℚ := (inb.map (fun p => ((p.2 : ℚ)))).sum / (inb.length : ℚ)
    let conf : ℚ := (inb.map (fun p => p.1)).sum / (inb.length : ℚ)
    |conf - acc| * prop
  else 0

/-- `calibration_error` from `eval.py`: bin boundaries
`np.linspace(0, 1, n_bins + 1)`, one `eceTerm` per bin, summed. -/
def calibration_error (y_true : List ℤ) (y_pred : List ℚ) (n_bins : ℕ) : ℚ :=
  let pairs := y_pred.zip y_true
  let total : ℚ := (y_pred.length : ℚ)
  ((List.range n_bins).map (fun (k : ℕ) =>
      eceTerm pairs total ((k : ℚ) / (n_bins : ℚ)) (((k : ℚ) + 1) / (n_bins : ℚ)))).sum

theorem indSum_le_one (p : ℚ) (n : ℕ) (m : ℕ) :
    (((List.range m).map (fun (k : ℕ) =>
        if (k : ℚ) / (n : ℚ) < p ∧ p ≤ ((k : ℚ) + 1) / (n : ℚ) then (1 : ℕ) else 0)).sum) ≤ 1 := by
  induction m with
  | zero => simp
  | succ m ih =>
      rw [List.range_succ, List.map_append, List.sum_append]
      by_cases hm : (m : ℚ) / (n : ℚ) < p ∧ p ≤ ((m : ℚ) + 1) / (n : ℚ)
      · have hzero : ((List.range m).map (fun (k : ℕ) =>
            if (k : ℚ) / (n : ℚ) < p ∧ p ≤ ((k : ℚ) + 1) / (n : ℚ) then (1 : ℕ) else 0)).sum = 0 := by
          apply List.sum_eq_zero
          intro x hx
          simp only [List.mem_map, List.mem_range] at hx
          obtain ⟨k, hk, hx⟩ := hx
          rw [← hx]
          have hle : ((k : ℚ) + 1) / (n : ℚ) ≤ (m : ℚ) / (n : ℚ) := by
            rcases Nat.eq_zero_or_pos n with hn | hn
            · subst hn; simp
            · rw [div_le_div_right (by exact_mod_cast hn : (0 : ℚ) < (n : ℚ))]
              exact_mod_cast hk
          have : ¬ p ≤ ((k : ℚ) + 1) / (n : ℚ) := fun hc => absurd (lt_of_le_of_lt (hc.trans hle) hm.1) (lt_irrefl p)
          simp [this]
        rw [hzero]
        simp [hm]
      · simp only [List.map_cons, List.map_nil, List.sum_cons, List.sum_nil, if_neg hm]
        simpa using ih

theorem binCountSum_le (pairs : List (ℚ × ℤ)) (n : ℕ) :
    (((List.range n).map (fun (k : ℕ) =>
        (pairs.filter (fun p =>
          decide ((k : ℚ) / (n : ℚ) < p.1 ∧ p.1 ≤ ((k : ℚ) + 1) / (n : ℚ)))).length)).sum)
      ≤ pairs.length := by
  induction pairs with
  | nil => simp
  | cons x l ih =>
      have hsplit : ∀ k : ℕ,
          ((x :: l).filter (fun p =>
            decide ((k : ℚ) / (n : ℚ) < p.1 ∧ p.1 ≤ ((k : ℚ) + 1) / (n : ℚ)))).length
          = (if (k : ℚ) / (n : ℚ) < x.1 ∧ x.1 ≤ ((k : ℚ) + 1) / (n : ℚ) then (1 : ℕ) else 0)
            + (l.filter (fun p =>
                decide ((k : ℚ) / (n : ℚ) < p.1 ∧ p.1 ≤ ((k : ℚ) + 1) / (n : ℚ)))).length := by
        intro k
        by_cases hx : (k : ℚ) / (n : ℚ) < x.1 ∧ x.1 ≤ ((k : ℚ) + 1) / (n : ℚ)
        · simp [List.filter_cons, hx]
          omega
        · simp [List.filter_cons, hx]
      calc ((List.range n).map (fun (k : ℕ) =>
              ((x :: l).filter (fun p =>
                decide ((k : ℚ) / (n : ℚ) < p.1 ∧ p.1 ≤ ((k : ℚ) + 1) / (n : ℚ)))).length)).sum
          = (((List.range n).map (fun (k : ℕ) =>
              (if (k : ℚ) / (n : ℚ) < x.1 ∧ x.1 ≤ ((k : ℚ) + 1) / (n : ℚ) then (1 : ℕ) else 0))).sum)
            + (((List.range n).map (fun (k : ℕ) =>
              (l.filter (fun p =>
                decide ((k : ℚ) / (n : ℚ) < p.1 ∧ p.1 ≤ ((k : ℚ) + 1) / (n : ℚ)))).length)).sum) := by
            rw [← List.sum_map_add]
            congr 1
            apply List.map_congr_left
            intro k _
            exact hsplit k
        _ ≤ 1 + l.length := Nat.add_le_add (indSum_le_one x.1 n n) ih
        _ = l.length + 1 := Nat.add_comm _ _
        _ = (x :: l).length := by simp

theorem mean_mem_Icc (l : List ℚ) (hl : l ≠ []) (h : ∀ x ∈ l, 0 ≤ x ∧ x ≤ 1) :
    0 ≤ l.sum / (l.length : ℚ) ∧ l.sum / (l.length : ℚ) ≤ 1 := by
  have hlen : 0 < (l.length : ℚ) := by
    have := List.length_pos.mpr hl
    exact_mod_cast this
  constructor
  · exact div_nonneg (List.sum_nonneg (fun x hx => (h x hx).1)) (le_of_lt hlen)
  · rw [div_le_one hlen]
    calc l.sum ≤ l.length • (1 : ℚ) := List.sum_le_card_nsmul l 1 (fun x hx => (h x hx).2)
      _ = (l.length : ℚ) := by simp

theorem eceTerm_nonneg (pairs : List (ℚ × ℤ)) (total lo hi : ℚ) :
    0 ≤ eceTerm pairs total lo hi := by
  simp only [eceTerm]
  split
  · next h => exact mul_nonneg (abs_nonneg _) (le_of_lt h)
  · exact le_refl 0

theorem eceTerm_le (pairs : List (ℚ × ℤ)) (total lo hi : ℚ) (ht : 0 < total)
    (hp : ∀ p ∈ pairs, (0 ≤ p.1 ∧ p.1 ≤ 1) ∧ (p.2 = 0 ∨ p.2 = 1)) :
    eceTerm pairs total lo hi
      ≤ ((pairs.filter (fun p => decide (lo < p.1 ∧ p.1 ≤ hi))).length : ℚ) / total := by
  simp only [eceTerm]
  split
  · next h =>
      have hne : pairs.filter (fun p => decide (lo < p.1 ∧ p.1 ≤ hi)) ≠ [] := by
        intro hc
        rw [hc] at h
        simp at h
      set inb := pairs.filter (fun p => decide (lo < p.1 ∧ p.1 ≤ hi)) with hinb
      have hsub : ∀ p ∈ inb, p ∈ pairs := fun p hp' => List.mem_of_mem_filter hp'
      have hconf := mean_mem_Icc (inb.map (fun p => p.1)) (by simpa using hne)
        (by
          intro x hx
          simp only [List.mem_map] at hx
          obtain ⟨q, hq, hqx⟩ := hx
          rw [← hqx]
          exact (hp q (hsub q hq)).1)
      have hacc := mean_mem_Icc (inb.map (fun p => ((p.2 : ℚ)))) (by simpa using hne)
        (by
          intro x hx
          simp only [List.mem_map] at hx
          obtain ⟨q, hq, hqx⟩ := hx
          rw [← hqx]
          rcases (hp q (hsub q hq)).2 with h0 | h1
          · rw [h0]; norm_num
          · rw [h1]; norm_num)
      rw [List.length_map] at hconf hacc
      have habs : |(inb.map (fun p => p.1)).sum / (inb.length : ℚ)
          - (inb.map (fun p => ((p.2 : ℚ)))).sum / (inb.length : ℚ)| ≤ 1 := by
        rw [abs_le]
        constructor
        · linarith [hconf.1, hconf.2, hacc.1, hacc.2]
        · linarith [hconf.1, hconf.2, hacc.1, hacc.2]
      calc |(inb.map (fun p => p.1)).sum / (inb.length : ℚ)
              - (inb.map (fun p => ((p.2 : ℚ)))).sum / (inb.length : ℚ)|
              * ((inb.length : ℚ) / total)
          ≤ 1 * ((inb.length : ℚ) / total) :=
            mul_le_mul_of_nonneg_right habs
              (div_nonneg (Nat.cast_nonneg _) (le_of_lt ht))
        _ = (inb.length : ℚ) / total := one_mul _
  · next h =>
      exact div_nonneg (Nat.cast_nonneg _) (le_of_lt ht)

/-- C6: for every non-empty label list with entries in `{0,1}` and
probability list with entries in `[0,1]`, the Expected Calibration Error
over 10 equal-width half-open bins lies in `[0, 1]`. -/
theorem c6_ece_bounds (y_true : List ℤ) (y_pred : List ℚ)
    (hne : y_pred ≠ [])
    (hlab : ∀ y ∈ y_true, y = 0 ∨ y = 1)
    (hprob : ∀ p ∈ y_pred, 0 ≤ p ∧ p ≤ 1) :
    0 ≤ calibration_error y_true y_pred 10 ∧ calibration_error y_true y_pred 10 ≤ 1 := by
  have htotal : 0 < ((y_pred.length : ℚ)) := by
    have := List.length_pos.mpr hne
    exact_mod_cast this
  have hpairs : ∀ p ∈ y_pred.zip y_true, (0 ≤ p.1 ∧ p.1 ≤ 1) ∧ (p.2 = 0 ∨ p.2 = 1) := by
    intro p hp
    have := List.mem_zip hp
    exact ⟨hprob p.1 this.1, hlab p.2 this.2⟩
  constructor
  · apply List.sum_nonneg
    intro x hx
    simp only [List.mem_map] at hx
    obtain ⟨k, _, hk⟩ := hx
    rw [← hk]
    exact eceTerm_nonneg _ _ _ _
  · calc calibration_error y_true y_pred 10
        ≤ ((List.range 10).map (fun (k : ℕ) =>
            (((y_pred.zip y_true).filter (fun p =>
              decide ((k : ℚ) / ((10 : ℕ) : ℚ) < p.1 ∧ p.1 ≤ ((k : ℚ) + 1) / ((10 : ℕ) : ℚ)))).length : ℚ)
            / (y_pred.length : ℚ))).sum := by
          apply List.sum_le_sum
          intro k _
          exact eceTerm_le _ _ _ _ htotal hpairs
      _ = ((((List.range 10).map (fun (k : ℕ) =>
            ((y_pred.zip y_true).filter (fun p =>
              decide ((k : ℚ) / ((10 : ℕ) : ℚ) < p.1 ∧ p.1 ≤ ((k : ℚ) + 1) / ((10 : ℕ) : ℚ)))).length)).sum : ℕ) : ℚ)
            / (y_pred.length : ℚ) := by
          rw [Nat.cast_list_sum, List.map_map]
          simp only [div_eq_mul_inv, Function.comp]
          rw [← List.sum_map_mul_right]
          rfl
      _ ≤ 1 := by
          rw [div_le_one htotal]
          have h1 := binCountSum_le (y_pred.zip y_true) 10
          have h2 : (y_pred.zip y_true).length ≤ y_pred.length := by
            rw [List.length_zip]
            exact Nat.min_le_left _ _
          exact_mod_cast le_trans h1 h2

theorem c6_ece_bounds_witness :
    (([(1 : ℚ)/2] : List ℚ) ≠ [] ∧ (∀ y ∈ ([1] : List ℤ), y = 0 ∨ y = 1) ∧
      (∀ p ∈ ([(1 : ℚ)/2] : List ℚ), 0 ≤ p ∧ p ≤ 1)) ∧
    (0 ≤ calibration_error [1] [(1 : ℚ)/2] 10 ∧ calibration_error [1] [(1 : ℚ)/2] 10 ≤ 1) :=
  ⟨⟨by simp, by decide, by norm_num⟩,
    c6_ece_bounds [1] [(1 : ℚ)/2] (by simp) (by decide) (by norm_num)⟩

/-! ## eval.py : recall_at_fixed_fpr

`sklearn.metrics.roc_curve` (with its default `drop_intermediate=True`)
is modelled from its documented algorithm: stable-sort the scores
descending, emit cumulative `(tps, fps)` at the last index of every run
of equal scores, drop collinear interior points, then prepend the
`(0, 0)` point with threshold `np.inf`. -/

/-- A threshold from `roc_curve`: `none` is the `np.inf` sentinel that
sklearn prepends to the threshold array. -/
abbrev Thresh := Option ℚ

/-- `score >= threshold`; nothing reaches the `np.inf` sentinel. -/
def geThresh (s : ℚ) (t : Thresh) : Bool :=
  match t with
  | none => false
  | some q => decide (q ≤ s)

/-- One ROC curve point: cumulative true positives, cumulative false
positives and the associated threshold. -/
structure RocPoint where
  tp : ℤ
  fp : ℤ
  thresh : Thresh
deriving DecidableEq

/-- `np.argsort(y_score, kind="mergesort")[::-1]`: stable ascending sort
of the (score, label) pairs, reversed. -/
def sortDesc (y_true : List ℤ) (y_pred : List ℚ) : List (ℚ × ℤ) :=
  ((y_pred.zip y_true).mergeSort (fun a b => decide (a.1 ≤ b.1))).reverse

/-- Modelled from sklearn `_binary_clf_curve`: walk the descending
(score, label) list keeping the running position `cnt` and cumulative
true-positive count `tp`, and emit a point at the last index of each
run of equal scores (`threshold_idxs`); `fps = 1 + threshold_idxs - tps`. -/
def clfCurve : List (ℚ × ℤ) → ℤ → ℤ → List RocPoint
  | [], _, _ => []
  | (s, t) :: rest, cnt, tp =>
      match rest with
      | [] => [⟨tp + t, (cnt + 1) - (tp + t), some s⟩]
      | (s2, _) :: _ =>
          if s2 = s then clfCurve rest (cnt + 1) (tp + t)
          else ⟨tp + t, (cnt + 1) - (tp + t), some s⟩ :: clfCurve rest (cnt + 1) (tp + t)

/-- `np.diff(fps, 2)`/`np.diff(tps, 2)` collinearity test: keep an
interior point iff one of the second differences is nonzero. -/
def keepPoint (prev cur next : RocPoint) : Bool :=
  decide (next.fp - cur.fp ≠ cur.fp - prev.fp) || decide (next.tp - cur.tp ≠ cur.tp - prev.tp)

/-- Interior filtering for `drop_intermediate`; `prev` is the previous
point of the ORIGINAL list (numpy computes the mask on the original
arrays), and the final point is always kept. -/
def dropMid (prev : RocPoint) : List RocPoint → List RocPoint
  | [] => []
  | [last] => [last]
  | cur :: next :: rest =>
      if keepPoint prev cur next then cur :: dropMid cur (next :: rest)
      else dropMid cur (next :: rest)

/-- sklearn's `drop_intermediate` step, applied only when the curve has
more than two points; the first point is always kept. -/
def dropIntermediate (l : List RocPoint) : List RocPoint :=
  match l with
  | [] => []
  | x :: rest => if 2 < l.length then x :: dropMid x rest else l

/-- `roc_curve(y_true, y_score)` as the list of its curve points, the
`(0,0)`/`np.inf` point prepended. -/
def roc_curve (y_true : List ℤ) (y_pred : List ℚ) : List RocPoint :=
  ⟨0, 0, none⟩ :: dropIntermediate (clfCurve (sortDesc y_true y_pred) 0 0)

/-- `fpr = fps / fps[-1]`. -/
def rocFpr (pts : List RocPoint) : List ℚ :=
  pts.map (fun p => (p.fp : ℚ) / (((pts.getLastD ⟨0, 0, none⟩).fp : ℤ) : ℚ))

/-- The `thresholds` array of the curve. -/
def rocThresholds (pts : List RocPoint) : List Thresh :=
  pts.map (fun p => p.thresh)

/-- The minimum of a list of rationals (`0` for the empty list). -/
def minList : List ℚ → ℚ
  | [] => 0
  | [x] => x
  | x :: y :: rest => min x (minList (y :: rest))

/-- `np.argmin`: the index of the first occurrence of the minimum. -/
def argminIdx : List ℚ → ℕ
  | [] => 0
  | [_] => 0
  | x :: y :: rest => if x ≤ minList (y :: rest) then 0 else argminIdx (y :: rest) + 1

theorem minList_le_mem (l : List ℚ) : ∀ x ∈ l, minList l ≤ x := by
  induction l with
  | nil => intro x hx; simp at hx
  | cons a rest ih =>
      intro x hx
      cases rest with
      | nil =>
          rcases List.mem_cons.mp hx with h | h
          · simp [minList, h]
          · simp at h
      | cons b rest' =>
          rcases List.mem_cons.mp hx with h | h
          · rw [h]; exact min_le_left _ _
          · exact le_trans (min_le_right _ _) (ih x h)

theorem argminIdx_lt_length (l : List ℚ) (h : l ≠ []) : argminIdx l < l.length := by
  induction l with
  | nil => exact absurd rfl h
  | cons a rest ih =>
      cases rest with
      | nil => simp [argminIdx]
      | cons b rest' =>
          by_cases ha : a ≤ minList (b :: rest')
          · simp [argminIdx, ha]
          · simp only [argminIdx, if_neg ha, List.length_cons]
            have := ih (by simp)
            simp only [List.length_cons] at this
            omega

theorem getD_argminIdx (l : List ℚ) (h : l ≠ []) :
    l.getD (argminIdx l) 0 = minList l := by
  induction l with
  | nil => exact absurd rfl h
  | cons a rest ih =>
      cases rest with
      | nil => simp [argminIdx, minList]
      | cons b rest' =>
          by_cases ha : a ≤ minList (b :: rest')
          · simp [argminIdx, ha, minList, min_eq_left ha]
          · simp only [argminIdx, if_neg ha, minList, List.getD_cons_succ]
            rw [min_eq_right (le_of_lt (lt_of_not_le ha))]
            exact ih (by simp)

theorem minList_lt_getD_of_lt_argminIdx (l : List ℚ) :
    ∀ j < argminIdx l, minList l < l.getD j 0 := by
  induction l with
  | nil => intro j hj; simp [argminIdx] at hj
  | cons a rest ih =>
      intro j hj
      cases rest with
      | nil => simp [argminIdx] at hj
      | cons b rest' =>
          by_cases ha : a ≤ minList (b :: rest')
          · simp [argminIdx, ha] at hj
          · simp only [argminIdx, if_neg ha] at hj
            cases j with
            | zero =>
                simp only [List.getD_cons_zero, minList]
                rw [min_eq_right (le_of_lt (lt_of_not_le ha))]
                exact lt_of_not_le ha
            | succ j' =>
                have hj' : j' < argminIdx (b :: rest') := by omega
                have := ih j' hj'
                simp only [List.getD_cons_succ, minList]
                calc min a (minList (b :: rest')) ≤ minList (b :: rest') := min_le_right _ _
                  _ < (b :: rest').getD j' 0 := this

theorem clfCurve_ne_nil (l : List (ℚ × ℤ)) (cnt tp : ℤ) (h : l ≠ []) :
    clfCurve l cnt tp ≠ [] := by
  induction l generalizing cnt tp with
  | nil => exact absurd rfl h
  | cons x rest ih =>
      obtain ⟨s, t⟩ := x
      cases rest with
      | nil => simp [clfCurve]
      | cons y rest' =>
          obtain ⟨s2, t2⟩ := y
          by_cases hs : s2 = s
          · simpa [clfCurve, hs] using ih (cnt + 1) (tp + t) (by simp)
          · simp [clfCurve, hs]

theorem clfCurve_mem_bounds (l : List (ℚ × ℤ)) (cnt tp : ℤ)
    (hlab : ∀ p ∈ l, p.2 = 0 ∨ p.2 = 1) (h0 : 0 ≤ tp) (h1 : tp ≤ cnt) :
    ∀ q ∈ clfCurve l cnt tp, 0 ≤ q.tp ∧ 0 ≤ q.fp := by
  induction l generalizing cnt tp with
  | nil => intro q hq; simp [clfCurve] at hq
  | cons x rest ih =>
      obtain ⟨s, t⟩ := x
      have ht : t = 0 ∨ t = 1 := hlab (s, t) (List.mem_cons_self _ _)
      have h0' : 0 ≤ tp + t := by rcases ht with h | h <;> simp [h] <;> omega
      have h1' : tp + t ≤ cnt + 1 := by rcases ht with h | h <;> simp [h] <;> omega
      intro q hq
      cases rest with
      | nil =>
          simp [clfCurve] at hq
          rw [hq]
          exact ⟨h0', by simp; omega⟩
      | cons y rest' =>
          obtain ⟨s2, t2⟩ := y
          have hlab' : ∀ p ∈ (s2, t2) :: rest', p.2 = 0 ∨ p.2 = 1 :=
            fun p hp => hlab p (List.mem_cons_of_mem _ hp)
          by_cases hs : s2 = s
          · rw [clfCurve, if_pos hs] at hq
            exact ih (cnt + 1) (tp + t) hlab' h0' h1' q hq
          · rw [clfCurve, if_neg hs] at hq
            rcases List.mem_cons.mp hq with h | h
            · rw [h]
              exact ⟨h0', by simp; omega⟩
            · exact ih (cnt + 1) (tp + t) hlab' h0' h1' q h

theorem clfCurve_getLastD (l : List (ℚ × ℤ)) (cnt tp : ℤ) (d : RocPoint) (h : l ≠ []) :
    ∃ s, (clfCurve l cnt tp).getLastD d
      = ⟨tp + (l.map (fun p => p.2)).sum,
         (cnt + (l.length : ℤ)) - (tp + (l.map (fun p => p.2)).sum), some s⟩ := by
  induction l generalizing cnt tp d with
  | nil => exact absurd rfl h
  | cons x rest ih =>
      obtain ⟨s, t⟩ := x
      cases rest with
      | nil => exact ⟨s, by simp [clfCurve]⟩
      | cons y rest' =>
          obtain ⟨s2, t2⟩ := y
          have harith : ∀ q : RocPoint,
              q = ⟨(tp + t) + (((s2, t2) :: rest').map (fun p => p.2)).sum,
                   ((cnt + 1) + ((((s2, t2) :: rest').length : ℕ) : ℤ))
                     - ((tp + t) + (((s2, t2) :: rest').map (fun p => p.2)).sum), q.thresh⟩ →
              q = ⟨tp + (((s, t) :: (s2, t2) :: rest').map (fun p => p.2)).sum,
                   (cnt + ((((s, t) :: (s2, t2) :: rest').length : ℕ) : ℤ))
                     - (tp + (((s, t) :: (s2, t2) :: rest').map (fun p => p.2)).sum), q.thresh⟩ := by
            intro q hq
            rw [hq]
            simp only [List.map_cons, List.sum_cons, List.length_cons]
            congr 1 <;> push_cast <;> ring
          by_cases hs : s2 = s
          · rw [clfCurve, if_pos hs]
            obtain ⟨s', hs'⟩ := ih (cnt + 1) (tp + t) d (by simp)
            refine ⟨s', ?_⟩
            rw [hs']
            exact harith ⟨_, _, some s'⟩ rfl
          · rw [clfCurve, if_neg hs, List.getLastD_cons]
            obtain ⟨s', hs'⟩ := ih (cnt + 1) (tp + t) _ (by simp)
            refine ⟨s', ?_⟩
            rw [hs']
            exact harith ⟨_, _, some s'⟩ rfl

theorem getLastD_eq_of_ne_nil {α : Type} (l : List α) (d d' : α) (h : l ≠ []) :
    l.getLastD d = l.getLastD d' := by
  cases l with
  | nil => exact absurd rfl h
  | cons a rest => rw [List.getLastD_cons, List.getLastD_cons]

theorem dropMid_getLastD (l : List RocPoint) (prev : RocPoint) (d : RocPoint) (h : l ≠ []) :
    (dropMid prev l).getLastD d = l.getLastD d := by
  induction l generalizing prev d with
  | nil => exact absurd rfl h
  | cons cur rest ih =>
      cases rest with
      | nil => rfl
      | cons next rest' =>
          rw [dropMid]
          by_cases hk : keepPoint prev cur next = true
          · rw [if_pos hk, List.getLastD_cons, List.getLastD_cons]
            exact ih cur cur (by simp)
          · rw [if_neg hk, List.getLastD_cons]
            rw [ih cur d (by simp)]
            exact getLastD_eq_of_ne_nil _ d cur (by simp)

theorem dropMid_subset (l : List RocPoint) (prev : RocPoint) :
    ∀ q ∈ dropMid prev l, q ∈ l := by
  induction l generalizing prev with
  | nil => intro q hq; simp [dropMid] at hq
  | cons cur rest ih =>
      cases rest with
      | nil => intro q hq; exact hq
      | cons next rest' =>
          intro q hq
          rw [dropMid] at hq
          by_cases hk : keepPoint prev cur next = true
          · rw [if_pos hk] at hq
            rcases List.mem_cons.mp hq with h | h
            · simp [h]
            · exact List.mem_cons_of_mem _ (ih cur q h)
          · rw [if_neg hk] at hq
            exact List.mem_cons_of_mem _ (ih cur q hq)

theorem dropIntermediate_getLastD (l : List RocPoint) (d : RocPoint) (h : l ≠ []) :
    (dropIntermediate l).getLastD d = l.getLastD d := by
  cases l with
  | nil => exact absurd rfl h
  | cons x rest =>
      rw [dropIntermediate]
      by_cases h2 : 2 < (x :: rest).length
      · rw [if_pos h2, List.getLastD_cons, List.getLastD_cons]
        have hrest : rest ≠ [] := by
          intro hc
          rw [hc] at h2
          simp at h2
        rw [dropMid_getLastD rest x x hrest]
      · rw [if_neg h2]

theorem dropIntermediate_subset (l : List RocPoint) :
    ∀ q ∈ dropIntermediate l, q ∈ l := by
  cases l with
  | nil => intro q hq; simp [dropIntermediate] at hq
  | cons x rest =>
      intro q hq
      rw [dropIntermediate] at hq
      by_cases h2 : 2 < (x :: rest).length
      · rw [if_pos h2] at hq
        rcases List.mem_cons.mp hq with h | h
        · simp [h]
        · exact List.mem_cons_of_mem _ (dropMid_subset rest x q h)
      · rw [if_neg h2] at hq
        exact hq

/-- `(y_pred >= threshold).astype(int)`. -/
def binarize (y_pred : List ℚ) (t : Thresh) : List Bool :=
  y_pred.map (fun p => geThresh p t)

/-- `tp = np.sum((y_true == 1) & (y_pred_binary == 1))`. -/
def tpCount (y_true : List ℤ) (y_pred : List ℚ) (t : Thresh) : ℕ :=
  ((y_true.zip (binarize y_pred t)).filter (fun q => decide (q.1 = 1) && q.2)).length

/-- `fn = np.sum((y_true == 1) & (y_pred_binary == 0))`. -/
def fnCount (y_true : List ℤ) (y_pred : List ℚ) (t : Thresh) : ℕ :=
  ((y_true.zip (binarize y_pred t)).filter (fun q => decide (q.1 = 1) && !q.2)).length

/-- `idx = np.argmin(np.abs(fpr - target_fpr))`. -/
def selIdx (y_true : List ℤ) (y_pred : List ℚ) (target : ℚ) : ℕ :=
  argminIdx ((rocFpr (roc_curve y_true y_pred)).map (fun f => |f - target|))

/-- `threshold = thresholds[idx] if idx < len(thresholds) else 0.5`. -/
def selThreshold (y_true : List ℤ) (y_pred : List ℚ) (target : ℚ) : Thresh :=
  let thresholds := rocThresholds (roc_curve y_true y_pred)
  if h : selIdx y_true y_pred target < thresholds.length
  then thresholds.get ⟨selIdx y_true y_pred target, h⟩
  else some (1/2)

/-- `recall_at_fixed_fpr` from `eval.py`: pick the threshold whose FPR is
closest to the target, re-binarize, and return `tp / max(1, tp + fn)`. -/
def recall_at_fixed_fpr (y_true : List ℤ) (y_pred : List ℚ) (target : ℚ) : ℚ :=
  let tp := tpCount y_true y_pred (selThreshold y_true y_pred target)
  let fn := fnCount y_true y_pred (selThreshold y_true y_pred target)
  (tp : ℚ) / ((max 1 (tp + fn) : ℕ) : ℚ)

theorem sum_le_length_int (l : List ℤ) (h : ∀ x ∈ l, x = 0 ∨ x = 1) :
    l.sum ≤ (l.length : ℤ) := by
  induction l with
  | nil => simp
  | cons a rest ih =>
      have ha := h a (List.mem_cons_self _ _)
      have := ih (fun x hx => h x (List.mem_cons_of_mem _ hx))
      simp only [List.sum_cons, List.length_cons]
      rcases ha with ha | ha <;> rw [ha] <;> push_cast <;> omega

theorem sum_lt_length_of_zero_mem (l : List ℤ) (h : ∀ x ∈ l, x = 0 ∨ x = 1)
    (h0 : (0 : ℤ) ∈ l) : l.sum < (l.length : ℤ) := by
  induction l with
  | nil => simp at h0
  | cons a rest ih =>
      have ha := h a (List.mem_cons_self _ _)
      have hrest : ∀ x ∈ rest, x = 0 ∨ x = 1 := fun x hx => h x (List.mem_cons_of_mem _ hx)
      simp only [List.sum_cons, List.length_cons]
      rcases ha with ha | ha
      · have := sum_le_length_int rest hrest
        rw [ha]
        push_cast
        omega
      · have h0' : (0 : ℤ) ∈ rest := by
          rcases List.mem_cons.mp h0 with hc | hc
          · rw [ha] at hc; exact absurd hc.symm one_ne_zero
          · exact hc
        have := ih hrest h0'
        rw [ha]
        push_cast
        omega

theorem sortDesc_mem_iff (y_true : List ℤ) (y_pred : List ℚ) (p : ℚ × ℤ) :
    p ∈ sortDesc y_true y_pred ↔ p ∈ y_pred.zip y_true := by
  unfold sortDesc
  rw [List.mem_reverse]
  exact (List.mergeSort_perm (y_pred.zip y_true) _).mem_iff

theorem sortDesc_length (y_true : List ℤ) (y_pred : List ℚ) :
    (sortDesc y_true y_pred).length = (y_pred.zip y_true).length := by
  unfold sortDesc
  rw [List.length_reverse, List.length_mergeSort]

theorem sortDesc_labels_sum (y_true : List ℤ) (y_pred : List ℚ) :
    ((sortDesc y_true y_pred).map (fun p => p.2)).sum
      = ((y_pred.zip y_true).map (fun p => p.2)).sum := by
  unfold sortDesc
  rw [List.map_reverse, List.sum_reverse]
  exact ((List.mergeSort_perm (y_pred.zip y_true) _).map _).sum_eq

theorem roc_curve_lastFp (y_true : List ℤ) (y_pred : List ℚ)
    (hne : y_pred.zip y_true ≠ []) :
    ((roc_curve y_true y_pred).getLastD ⟨0, 0, none⟩).fp
      = ((sortDesc y_true y_pred).length : ℤ)
        - ((sortDesc y_true y_pred).map (fun p => p.2)).sum := by
  have hs : sortDesc y_true y_pred ≠ [] := by
    intro hc
    have := sortDesc_length y_true y_pred
    rw [hc] at this
    exact hne (List.length_eq_zero.mp this.symm)
  have hcl : clfCurve (sortDesc y_true y_pred) 0 0 ≠ [] := clfCurve_ne_nil _ _ _ hs
  unfold roc_curve
  rw [List.getLastD_cons, dropIntermediate_getLastD _ _ hcl]
  obtain ⟨s, hlast⟩ := clfCurve_getLastD (sortDesc y_true y_pred) 0 0 ⟨0, 0, none⟩ hs
  rw [hlast]
  show (0 + ((sortDesc y_true y_pred).length : ℤ))
      - (0 + ((sortDesc y_true y_pred).map (fun p => p.2)).sum) = _
  ring

theorem rocN_pos (y_true : List ℤ) (y_pred : List ℚ)
    (hlen : y_true.length = y_pred.length)
    (hbin : ∀ y ∈ y_true, y = 0 ∨ y = 1) (hneg : (0 : ℤ) ∈ y_true) :
    0 < ((roc_curve y_true y_pred).getLastD ⟨0, 0, none⟩).fp := by
  have hzlen : (y_pred.zip y_true).length = y_true.length := by
    rw [List.length_zip, hlen, Nat.min_self]
  have hne : y_pred.zip y_true ≠ [] := by
    intro hc
    rw [hc] at hzlen
    have : y_true = [] := List.length_eq_zero.mp hzlen.symm
    rw [this] at hneg
    simp at hneg
  rw [roc_curve_lastFp y_true y_pred hne]
  have hmap := List.map_snd_zip y_pred y_true (le_of_eq hlen)
  have hlabels : ∀ x ∈ (sortDesc y_true y_pred).map (fun p => p.2), x = 0 ∨ x = 1 := by
    intro x hx
    obtain ⟨p, hp, hpx⟩ := List.mem_map.mp hx
    have := (List.mem_zip ((sortDesc_mem_iff y_true y_pred p).mp hp)).2
    rw [← hpx]
    exact hbin p.2 this
  have h0mem : (0 : ℤ) ∈ (sortDesc y_true y_pred).map (fun p => p.2) := by
    rw [← hmap] at hneg
    obtain ⟨p, hp, hp0⟩ := List.mem_map.mp hneg
    exact List.mem_map.mpr ⟨p, (sortDesc_mem_iff y_true y_pred p).mpr hp, hp0⟩
  have := sum_lt_length_of_zero_mem _ hlabels h0mem
  rw [List.length_map] at this
  omega

theorem rocFpr_nonneg (y_true : List ℤ) (y_pred : List ℚ)
    (hlen : y_true.length = y_pred.length)
    (hbin : ∀ y ∈ y_true, y = 0 ∨ y = 1) (hneg : (0 : ℤ) ∈ y_true) :
    ∀ f ∈ rocFpr (roc_curve y_true y_pred), 0 ≤ f := by
  intro f hf
  obtain ⟨p, hp, hpf⟩ := List.mem_map.mp hf
  rw [← hpf]
  apply div_nonneg
  · rcases List.mem_cons.mp hp with h | h
    · rw [h]; simp
    · have hsub := dropIntermediate_subset _ p h
      have hlab : ∀ q ∈ sortDesc y_true y_pred, q.2 = 0 ∨ q.2 = 1 := by
        intro q hq
        exact hbin q.2 (List.mem_zip ((sortDesc_mem_iff y_true y_pred q).mp hq)).2
      have := clfCurve_mem_bounds (sortDesc y_true y_pred) 0 0 hlab le_rfl le_rfl p hsub
      exact_mod_cast this.2
  · have := rocN_pos y_true y_pred hlen hbin hneg
    exact_mod_cast le_of_lt this

theorem filter_split_count (l : List (ℤ × Bool)) :
    (l.filter (fun q => decide (q.1 = 1) && q.2)).length
      + (l.filter (fun q => decide (q.1 = 1) && !q.2)).length
    = (l.filter (fun q => decide (q.1 = 1))).length := by
  induction l with
  | nil => simp
  | cons x rest ih =>
      obtain ⟨y, b⟩ := x
      by_cases hy : y = 1
      · cases b <;> simp [List.filter_cons, hy] <;> omega
      · simp [List.filter_cons, hy, ih]

theorem zip_filter_fst_count (ys : List ℤ) (bs : List Bool) (h : ys.length = bs.length) :
    ((ys.zip bs).filter (fun q => decide (q.1 = 1))).length = ys.count 1 := by
  induction ys generalizing bs with
  | nil => simp
  | cons y rest ih =>
      cases bs with
      | nil => simp at h
      | cons b bs' =>
          have h' : rest.length = bs'.length := by simpa using h
          by_cases hy : y = 1
          · simp [List.zip_cons_cons, List.filter_cons, hy, List.count_cons, ih bs' h']
          · simp [List.zip_cons_cons, List.filter_cons, hy, List.count_cons, ih bs' h']

theorem tp_add_fn_eq_count (y_true : List ℤ) (y_pred : List ℚ) (t : Thresh)
    (hlen : y_true.length = y_pred.length) :
    tpCount y_true y_pred t + fnCount y_true y_pred t = y_true.count 1 := by
  unfold tpCount fnCount
  rw [filter_split_count]
  apply zip_filter_fst_count
  unfold binarize
  rw [List.length_map]
  exact hlen

theorem rocFpr_ne_nil (y_true : List ℤ) (y_pred : List ℚ) :
    rocFpr (roc_curve y_true y_pred) ≠ [] := by
  unfold rocFpr roc_curve
  simp

theorem getD_map_abs (fpr : List ℚ) (target : ℚ) (j : ℕ) (hj : j < fpr.length) :
    (fpr.map (fun f => |f - target|)).getD j 0 = |fpr.getD j 0 - target| := by
  rw [List.getD_eq_getElem _ _ (by rwa [List.length_map]), List.getD_eq_getElem _ _ hj,
    List.getElem_map]

theorem getD_mem_of_lt {l : List ℚ} {j : ℕ} (hj : j < l.length) : l.getD j 0 ∈ l := by
  rw [List.getD_eq_getElem _ _ hj]
  exact List.getElem_mem hj

theorem sel_closest (y_true : List ℤ) (y_pred : List ℚ) (target : ℚ) :
    selIdx y_true y_pred target < (rocFpr (roc_curve y_true y_pred)).length ∧
    (∀ j < (rocFpr (roc_curve y_true y_pred)).length,
        |(rocFpr (roc_curve y_true y_pred)).getD (selIdx y_true y_pred target) 0 - target|
          ≤ |(rocFpr (roc_curve y_true y_pred)).getD j 0 - target|) ∧
    (∀ j < selIdx y_true y_pred target,
        |(rocFpr (roc_curve y_true y_pred)).getD (selIdx y_true y_pred target) 0 - target|
          < |(rocFpr (roc_curve y_true y_pred)).getD j 0 - target|) := by
  have hfprne := rocFpr_ne_nil y_true y_pred
  have hgne : (rocFpr (roc_curve y_true y_pred)).map (fun f => |f - target|) ≠ [] := by
    simpa using hfprne
  have hglen : ((rocFpr (roc_curve y_true y_pred)).map (fun f => |f - target|)).length
      = (rocFpr (roc_curve y_true y_pred)).length := List.length_map _ _
  have hsel : selIdx y_true y_pred target
      = argminIdx ((rocFpr (roc_curve y_true y_pred)).map (fun f => |f - target|)) := rfl
  have hlt : selIdx y_true y_pred target < (rocFpr (roc_curve y_true y_pred)).length := by
    rw [hsel, ← hglen]
    exact argminIdx_lt_length _ hgne
  refine ⟨hlt, ?_, ?_⟩
  · intro j hj
    rw [← getD_map_abs _ target _ hlt, ← getD_map_abs _ target j hj, hsel,
      getD_argminIdx _ hgne]
    exact minList_le_mem _ _ (getD_mem_of_lt (by rwa [hglen]))
  · intro j hj
    have hjlen : j < (rocFpr (roc_curve y_true y_pred)).length := lt_trans hj hlt
    rw [← getD_map_abs _ target _ hlt, ← getD_map_abs _ target j hjlen, hsel,
      getD_argminIdx _ hgne]
    exact minList_lt_getD_of_lt_argminIdx _ j (hsel ▸ hj)

theorem recall_eq_ratio (y_true : List ℤ) (y_pred : List ℚ) (target : ℚ)
    (hlen : y_true.length = y_pred.length) (hpos : (1 : ℤ) ∈ y_true) :
    recall_at_fixed_fpr y_true y_pred target
      = (tpCount y_true y_pred (selThreshold y_true y_pred target) : ℚ)
        / ((tpCount y_true y_pred (selThreshold y_true y_pred target)
            + fnCount y_true y_pred (selThreshold y_true y_pred target) : ℕ) : ℚ) := by
  have hcnt := tp_add_fn_eq_count y_true y_pred (selThreshold y_true y_pred target) hlen
  have hone : 0 < y_true.count 1 := List.count_pos_iff.mpr hpos
  have hmax : max 1 (tpCount y_true y_pred (selThreshold y_true y_pred target)
      + fnCount y_true y_pred (selThreshold y_true y_pred target))
      = tpCount y_true y_pred (selThreshold y_true y_pred target)
        + fnCount y_true y_pred (selThreshold y_true y_pred target) := by
    rw [hcnt]
    omega
  simp only [recall_at_fixed_fpr]
  rw [hmax]

theorem sel_min_at_zero (y_true : List ℤ) (y_pred : List ℚ)
    (hlen : y_true.length = y_pred.length)
    (hbin : ∀ y ∈ y_true, y = 0 ∨ y = 1) (hneg : (0 : ℤ) ∈ y_true) :
    (rocFpr (roc_curve y_true y_pred)).getD (selIdx y_true y_pred 0) 0
      = minList (rocFpr (roc_curve y_true y_pred)) ∧
    ∀ j < (rocFpr (roc_curve y_true y_pred)).length,
      minList (rocFpr (roc_curve y_true y_pred)) ≤ (rocFpr (roc_curve y_true y_pred)).getD j 0 := by
  have hfprne := rocFpr_ne_nil y_true y_pred
  have hmapid : (rocFpr (roc_curve y_true y_pred)).map (fun f => |f - (0 : ℚ)|)
      = rocFpr (roc_curve y_true y_pred) := by
    have : ∀ f ∈ rocFpr (roc_curve y_true y_pred), |f - (0 : ℚ)| = id f := by
      intro f hf
      rw [sub_zero, id]
      exact abs_of_nonneg (rocFpr_nonneg y_true y_pred hlen hbin hneg f hf)
    rw [List.map_congr_left this, List.map_id]
  have hsel : selIdx y_true y_pred 0 = argminIdx (rocFpr (roc_curve y_true y_pred)) := by
    unfold selIdx
    rw [hmapid]
  constructor
  · rw [hsel]
    exact getD_argminIdx _ hfprne
  · intro j hj
    exact minList_le_mem _ _ (getD_mem_of_lt hj)

/-- C4: `recall_at_fixed_fpr` picks the ROC-curve index whose FPR is
closest to the target (ties to the first occurrence), returns
`TP/(TP+FN)` at the selected threshold, and at `target_fpr = 0` the
selected FPR is the minimum FPR on the curve. -/
theorem c4_recall_at_fixed_fpr (y_true : List ℤ) (y_pred : List ℚ) (target : ℚ)
    (hlen : y_true.length = y_pred.length)
    (hbin : ∀ y ∈ y_true, y = 0 ∨ y = 1)
    (hpos : (1 : ℤ) ∈ y_true) (hneg : (0 : ℤ) ∈ y_true) :
    (selIdx y_true y_pred target < (rocFpr (roc_curve y_true y_pred)).length) ∧
    (∀ j < (rocFpr (roc_curve y_true y_pred)).length,
        |(rocFpr (roc_curve y_true y_pred)).getD (selIdx y_true y_pred target) 0 - target|
          ≤ |(rocFpr (roc_curve y_true y_pred)).getD j 0 - target|) ∧
    (∀ j < selIdx y_true y_pred target,
        |(rocFpr (roc_curve y_true y_pred)).getD (selIdx y_true y_pred target) 0 - target|
          < |(rocFpr (roc_curve y_true y_pred)).getD j 0 - target|) ∧
    (recall_at_fixed_fpr y_true y_pred target
        = (tpCount y_true y_pred (selThreshold y_true y_pred target) : ℚ)
          / ((tpCount y_true y_pred (selThreshold y_true y_pred target)
              + fnCount y_true y_pred (selThreshold y_true y_pred target) : ℕ) : ℚ)) ∧
    (target = 0 →
        (rocFpr (roc_curve y_true y_pred)).getD (selIdx y_true y_pred target) 0
          = minList (rocFpr (roc_curve y_true y_pred)) ∧
        ∀ j < (rocFpr (roc_curve y_true y_pred)).length,
          minList (rocFpr (roc_curve y_true y_pred))
            ≤ (rocFpr (roc_curve y_true y_pred)).getD j 0) := by
  obtain ⟨h1, h2, h3⟩ := sel_closest y_true y_pred target
  refine ⟨h1, h2, h3, recall_eq_ratio y_true y_pred target hlen hpos, ?_⟩
  intro ht
  rw [ht]
  exact sel_min_at_zero y_true y_pred hlen hbin hneg

theorem c4_recall_at_fixed_fpr_witness :
    (([0, 1] : List ℤ).length = ([2, 1] : List ℚ).length ∧
      (∀ y ∈ ([0, 1] : List ℤ), y = 0 ∨ y = 1) ∧
      (1 : ℤ) ∈ ([0, 1] : List ℤ) ∧ (0 : ℤ) ∈ ([0, 1] : List ℤ)) ∧
    ((selIdx [0, 1] [2, 1] 0 < (rocFpr (roc_curve [0, 1] [2, 1])).length) ∧
    (∀ j < (rocFpr (roc_curve [0, 1] [2, 1])).length,
        |(rocFpr (roc_curve [0, 1] [2, 1])).getD (selIdx [0, 1] [2, 1] 0) 0 - 0|
          ≤ |(rocFpr (roc_curve [0, 1] [2, 1])).getD j 0 - 0|) ∧
    (∀ j < selIdx [0, 1] [2, 1] 0,
        |(rocFpr (roc_curve [0, 1] [2, 1])).getD (selIdx [0, 1] [2, 1] 0) 0 - 0|
          < |(rocFpr (roc_curve [0, 1] [2, 1])).getD j 0 - 0|) ∧
    (recall_at_fixed_fpr [0, 1] [2, 1] 0
        = (tpCount [0, 1] [2, 1] (selThreshold [0, 1] [2, 1] 0) : ℚ)
          / ((tpCount [0, 1] [2, 1] (selThreshold [0, 1] [2, 1] 0)
              + fnCount [0, 1] [2, 1] (selThreshold [0, 1] [2, 1] 0) : ℕ) : ℚ)) ∧
    ((0 : ℚ) = 0 →
        (rocFpr (roc_curve [0, 1] [2, 1])).getD (selIdx [0, 1] [2, 1] 0) 0
          = minList (rocFpr (roc_curve [0, 1] [2, 1])) ∧
        ∀ j < (rocFpr (roc_curve [0, 1] [2, 1])).length,
          minList (rocFpr (roc_curve [0, 1] [2, 1]))
            ≤ (rocFpr (roc_curve [0, 1] [2, 1])).getD j 0)) :=
  ⟨⟨by decide, by decide, by decide, by decide⟩,
    c4_recall_at_fixed_fpr [0, 1] [2, 1] 0 (by decide) (by decide) (by decide) (by decide)⟩

/-- C10: the recall denominator is `max(1, TP+FN)`, so the function never
divides by zero, and whenever there are no true positives at the selected
threshold it returns 0 rather than failing.  (The claim's stronger
precondition — both classes present yet `TP = FN = 0` — is unsatisfiable,
since `TP + FN` equals the number of positive labels.) -/
theorem c10_recall_guard (y_true : List ℤ) (y_pred : List ℚ) (target : ℚ)
    (h : tpCount y_true y_pred (selThreshold y_true y_pred target) = 0) :
    recall_at_fixed_fpr y_true y_pred target = 0 ∧
    (0 : ℚ) < ((max 1 (tpCount y_true y_pred (selThreshold y_true y_pred target)
        + fnCount y_true y_pred (selThreshold y_true y_pred target)) : ℕ) : ℚ) := by
  constructor
  · simp only [recall_at_fixed_fpr]
    rw [h]
    simp
  · have : 0 < max 1 (tpCount y_true y_pred (selThreshold y_true y_pred target)
        + fnCount y_true y_pred (selThreshold y_true y_pred target)) := by
      omega
    exact_mod_cast this

theorem c10_recall_guard_witness :
    tpCount [] [] (selThreshold [] [] 0) = 0 ∧
    (recall_at_fixed_fpr [] [] 0 = 0 ∧
      (0 : ℚ) < ((max 1 (tpCount [] [] (selThreshold [] [] 0)
          + fnCount [] [] (selThreshold [] [] 0)) : ℕ) : ℚ)) :=
  ⟨rfl, c10_recall_guard [] [] 0 rfl⟩

/-! ## eval.py : mean_lead_time

A `time_to_disruption` entry is `Option ℚ`, `none` standing for
`float("inf")` (so `time[i] < np.inf` is `Option.isSome`). -/

/-- The inner loop `for j in range(i, -1, -1): if y_pred[j] >= threshold:
... break` — the first index `j ≤ i`, scanning backwards, whose
prediction crosses the threshold. -/
def firstCrossBack (y_pred : List ℚ) (threshold : ℚ) : ℕ → Option ℕ
  | 0 => if threshold ≤ y_pred.getD 0 0 then some 0 else none
  | j + 1 =>
      if threshold ≤ y_pred.getD (j + 1) 0 then some (j + 1)
      else firstCrossBack y_pred threshold j

/-- The lead times recorded for row `i` (at most one): requires
`y_true[i] == 1 and time[i] < np.inf`, then scans backwards for the first
threshold crossing and records `time[i] - time[j]` when positive.  A
crossing at a row with infinite time gives `ti - inf = -inf`, which is
not `> 0` and records nothing. -/
def leadContribution (y_true : List ℤ) (y_pred : List ℚ) (time : List (Option ℚ))
    (threshold : ℚ) (i : ℕ) : List ℚ :=
  if y_true.getD i 0 = 1 then
    match time.getD i none with
    | none => []
    | some ti =>
        match firstCrossBack y_pred threshold i with
        | none => []
        | some j =>
            match time.getD j none with
            | none => []
            | some tj => if 0 < ti - tj then [ti - tj] else []
  else []

/-- The `lead_times` list accumulated by the outer loop of
`mean_lead_time`. -/
def leadTimes (y_true : List ℤ) (y_pred : List ℚ) (time : List (Option ℚ))
    (threshold : ℚ) : List ℚ :=
  (List.range y_pred.length).flatMap (leadContribution y_true y_pred time threshold)

/-- `mean_lead_time` from `eval.py`:
`np.mean(lead_times) if lead_times else 0.0`. -/
def mean_lead_time (y_true : List ℤ) (y_pred : List ℚ) (time : List (Option ℚ))
    (threshold : ℚ) : ℚ :=
  let lt := leadTimes y_true y_pred time threshold
  if lt = [] then 0 else lt.sum / (lt.length : ℚ)

/-- C2 failing input: the backward scan has no notion of shots.  Rows
`[shot A; shot B]` with `y_true = [0, 1]`, `time = [5, 20]`: with shot
A's prediction at `2` the scan from B's positive row crosses into shot A
and records the cross-shot lead `20 - 5 = 15`; mutating shot A's
prediction to `0` changes B's contribution and the mean drops to `0`. -/
theorem c2_lead_time_cross_shot :
    mean_lead_time [0, 1] [9/10, 3/10] [some 5, some 20] (1/2) = 15 ∧
    mean_lead_time [0, 1] [0, 3/10] [some 5, some 20] (1/2) = 0 := by
  constructor
  · simp only [mean_lead_time, leadTimes, leadContribution, firstCrossBack]
    norm_num [List.range_succ, List.flatMap_cons, firstCrossBack, leadContribution]
  · simp only [mean_lead_time, leadTimes, leadContribution, firstCrossBack]
    norm_num [List.range_succ, List.flatMap_cons, firstCrossBack, leadContribution]

/-! ## features.py : compute_window_features

The source computes every feature over the flat channel column of the
whole dataframe — `df[channel].rolling(...)`, `df[channel].diff()`,
`df[channel].ewm(...)` — with no grouping by `shot_id` anywhere.
`std` and `z-score` take floating square roots of the same flat rolling
and EMA state and are not reproduced numerically; the EMA mean state
that feeds the z-score is. -/

/-- The trailing window `values[max(0, i - n + 1) : i + 1]` used by a
pandas rolling computation with `min_periods=1`. -/
def rollingWindow (values : List ℚ) (n : ℕ) (i : ℕ) : List ℚ :=
  (values.take (i + 1)).drop (i + 1 - n)

/-- `rolling(window=n, min_periods=1).mean()`. -/
def rollingMean (values : List ℚ) (n : ℕ) : List ℚ :=
  (List.range values.length).map (fun i =>
    (rollingWindow values n i).sum / ((rollingWindow values n i).length : ℚ))

/-- The maximum of a list of rationals (`0` for the empty list). -/
def maxList : List ℚ → ℚ
  | [] => 0
  | [x] => x
  | x :: y :: rest => max x (maxList (y :: rest))

/-- `rolling(window=n, min_periods=1).min()`. -/
def rollingMinCol (values : List ℚ) (n : ℕ) : List ℚ :=
  (List.range values.length).map (fun i => minList (rollingWindow values n i))

/-- `rolling(window=n, min_periods=1).max()`. -/
def rollingMaxCol (values : List ℚ) (n : ℕ) : List ℚ :=
  (List.range values.length).map (fun i => maxList (rollingWindow values n i))

/-- `np.polyfit(x, w, 1)` slope for the window `w` over `x = 0..m-1`:
the ordinary-least-squares slope `(m·Σxy − Σx·Σy) / (m·Σx² − (Σx)²)`. -/
def olsSlope (w : List ℚ) : ℚ :=
  let m : ℚ := (w.length : ℚ)
  let xs := (List.range w.length).map (fun (k : ℕ) => (k : ℚ))
  let sx := xs.sum
  let sy := w.sum
  let sxy := ((xs.zip w).map (fun p => p.1 * p.2)).sum
  let sxx := (xs.map (fun x => x * x)).sum
  (m * sxy - sx * sy) / (m * sxx - sx * sx)

/-- The slope feature: OLS slope of the trailing window when it holds at
least two points (else 0), rescaled by `sample_rate_hz / 1000`. -/
def slopeCol (values : List ℚ) (n : ℕ) (rate : ℕ) : List ℚ :=
  (List.range values.length).map (fun i =>
    let w := rollingWindow values n i
    if 2 ≤ w.length then olsSlope w * (rate : ℚ) / 1000 else 0)

/-- `rolling.apply(lambda x: x.iloc[-1])` — the window's final value. -/
def lastCol (values : List ℚ) (n : ℕ) : List ℚ :=
  (List.range values.length).map (fun i => (rollingWindow values n i).getLastD 0)

/-- `df[channel].diff().fillna(0)`. -/
def deltaCol (values : List ℚ) : List ℚ :=
  (List.range values.length).map (fun i =>
    if i = 0 then 0 else values.getD i 0 - values.getD (i - 1) 0)

/-- `ewm(alpha=α, adjust=False).mean()`, continuing from `prev`. -/
def emaFrom (alpha : ℚ) (prev : ℚ) : List ℚ → List ℚ
  | [] => []
  | x :: rest =>
      ((1 - alpha) * prev + alpha * x) :: emaFrom alpha ((1 - alpha) * prev + alpha * x) rest

/-- `ewm(alpha=α, adjust=False).mean()`: the first value seeds the state. -/
def emaList (alpha : ℚ) : List ℚ → List ℚ
  | [] => []
  | x :: rest => x :: emaFrom alpha x rest

/-- The derived columns of `compute_window_features` for one channel and
one window size (the two square-root features omitted, their shared
rolling/EMA state retained). -/
structure WindowFeatureCols where
  wMean : List ℚ
  wMin : List ℚ
  wMax : List ℚ
  wSlope : List ℚ
  wLast : List ℚ
  wDelta : List ℚ
  wEma : List ℚ

/-- `compute_window_features` from `features.py` for one channel and one
window size; `window_samples = int(window_ms * sample_rate_hz / 1000)`,
EMA smoothing `ema_alpha = 0.01`.  The whole flat column is used — there
is no per-shot grouping in the source. -/
def compute_window_features (values : List ℚ) (window_ms : ℕ) (rate : ℕ) :
    WindowFeatureCols :=
  let n := window_ms * rate / 1000
  ⟨rollingMean values n, rollingMinCol values n, rollingMaxCol values n,
   slopeCol values n rate, lastCol values n, deltaCol values,
   emaList (1/100) values⟩

/-- C1 failing input: shot A = `[0]` followed by shot B = `[10]`, window
of 2 samples.  B's first row (index 1) changes when shot A's value is
mutated to `2`: the rolling mean moves `5 → 6`, min `0 → 2`, delta
`10 → 8`, and the EMA state `1/10 → 52/25` — the rolling state is not
restarted at the shot boundary. -/
theorem c1_window_cross_shot :
    ((compute_window_features [0, 10] 2 1000).wMean.getD 1 0 = 5 ∧
     (compute_window_features [2, 10] 2 1000).wMean.getD 1 0 = 6) ∧
    ((compute_window_features [0, 10] 2 1000).wMin.getD 1 0 = 0 ∧
     (compute_window_features [2, 10] 2 1000).wMin.getD 1 0 = 2) ∧
    ((compute_window_features [0, 10] 2 1000).wDelta.getD 1 0 = 10 ∧
     (compute_window_features [2, 10] 2 1000).wDelta.getD 1 0 = 8) ∧
    ((compute_window_features [0, 10] 2 1000).wEma.getD 1 0 = 1/10 ∧
     (compute_window_features [2, 10] 2 1000).wEma.getD 1 0 = 52/25) := by
  have hc : ∀ xs : List ℚ, compute_window_features xs 2 1000
      = ⟨rollingMean xs 2, rollingMinCol xs 2, rollingMaxCol xs 2,
         slopeCol xs 2 1000, lastCol xs 2, deltaCol xs, emaList (1/100) xs⟩ := fun _ => rfl
  refine ⟨⟨?_, ?_⟩, ⟨?_, ?_⟩, ⟨?_, ?_⟩, ⟨?_, ?_⟩⟩ <;>
    simp only [hc] <;>
    norm_num [rollingMean, rollingMinCol, rollingWindow, deltaCol, emaList, emaFrom,
      minList, List.range_succ, List.getD_cons_zero, List.getD_cons_succ]

/-! ## features.py : compute_spectral_features

`np.abs(np.fft.rfft(w))**2` is a floating-point transform; the embedding
takes the power spectrum as a parameter `pw` constrained only by the
rFFT output-length law `len = n//2 + 1`.  Everything else — the sliding
buffer, the 32-sample validity threshold, `rfftfreq` and the
DC-exclusion in the argmax — is embedded exactly. -/

/-- `np.argmax`: the index of the first occurrence of the maximum. -/
def argmaxIdx : List ℚ → ℕ
  | [] => 0
  | [_] => 0
  | x :: y :: rest => if maxList (y :: rest) ≤ x then 0 else argmaxIdx (y :: rest) + 1

theorem le_maxList_mem (l : List ℚ) : ∀ x ∈ l, x ≤ maxList l := by
  induction l with
  | nil => intro x hx; simp at hx
  | cons a rest ih =>
      intro x hx
      cases rest with
      | nil =>
          rcases List.mem_cons.mp hx with h | h
          · simp [maxList, h]
          · simp at h
      | cons b rest' =>
          rcases List.mem_cons.mp hx with h | h
          · rw [h]; exact le_max_left _ _
          · exact le_trans (ih x h) (le_max_right _ _)

theorem argmaxIdx_lt_length (l : List ℚ) (h : l ≠ []) : argmaxIdx l < l.length := by
  induction l with
  | nil => exact absurd rfl h
  | cons a rest ih =>
      cases rest with
      | nil => simp [argmaxIdx]
      | cons b rest' =>
          by_cases ha : maxList (b :: rest') ≤ a
          · simp [argmaxIdx, ha]
          · simp only [argmaxIdx, if_neg ha, List.length_cons]
            have := ih (by simp)
            simp only [List.length_cons] at this
            omega

theorem getD_argmaxIdx (l : List ℚ) (h : l ≠ []) :
    l.getD (argmaxIdx l) 0 = maxList l := by
  induction l with
  | nil => exact absurd rfl h
  | cons a rest ih =>
      cases rest with
      | nil => simp [argmaxIdx, maxList]
      | cons b rest' =>
          by_cases ha : maxList (b :: rest') ≤ a
          · simp [argmaxIdx, ha, maxList, max_eq_left ha]
          · simp only [argmaxIdx, if_neg ha, maxList, List.getD_cons_succ]
            rw [max_eq_right (le_of_lt (lt_of_not_le ha))]
            exact ih (by simp)

/-- `window_size = min(1000, len(values) // 10)`. -/
def spectralWindowSize (len : ℕ) : ℕ := min 1000 (len / 10)

/-- `np.fft.rfftfreq(n, 1.0 / sample_rate_hz)`: `k * rate / n` for
`k = 0 .. n//2`. -/
def rfftfreqs (n : ℕ) (rate : ℕ) : List ℚ :=
  (List.range (n / 2 + 1)).map (fun (k : ℕ) => (k : ℚ) * (rate : ℚ) / (n : ℚ))

/-- The (energy, dominant_freq) pair of one row of
`compute_spectral_features`. -/
def spectralFeaturesAt (pw : List ℚ → List ℚ) (values : List ℚ) (rate : ℕ) (i : ℕ) :
    ℚ × ℚ :=
  let w := rollingWindow values (spectralWindowSize values.length) i
  if 32 ≤ w.length then
    let power := pw w
    let freqs := rfftfreqs w.length rate
    if 0 < power.length then
      (power.sum, freqs.getD (argmaxIdx (power.drop 1) + 1) 0)
    else (power.sum, 0)
  else (0, 0)

/-- `compute_spectral_features` from `features.py` for one channel:
`energy` and `dominant_freq` per row. -/
def compute_spectral_features (pw : List ℚ → List ℚ) (values : List ℚ) (rate : ℕ) :
    List (ℚ × ℚ) :=
  (List.range values.length).map (spectralFeaturesAt pw values rate)

theorem getD_drop_one (l : List ℚ) (m : ℕ) (hm : 0 < m) :
    (l.drop 1).getD (m - 1) 0 = l.getD m 0 := by
  cases l with
  | nil => simp
  | cons a rest =>
      cases m with
      | zero => omega
      | succ m' => simp

/-- C7: per row, the engine buffers the most recent
`min(min(1000, len//10), i+1)` samples; with fewer than 32 buffered it
emits `energy = 0, dominant_freq = 0`; otherwise the dominant frequency
is `k * rate / n` for the first index `k ≥ 1` (DC bin excluded) of
maximal power. -/
theorem c7_spectral_contract (pw : List ℚ → List ℚ)
    (hpw : ∀ w : List ℚ, (pw w).length = w.length / 2 + 1)
    (values : List ℚ) (rate : ℕ) (i : ℕ) (hi : i < values.length) :
    (rollingWindow values (spectralWindowSize values.length) i
        = (values.take (i + 1)).drop
            ((i + 1) - min (spectralWindowSize values.length) (i + 1)) ∧
     (rollingWindow values (spectralWindowSize values.length) i).length
        = min (spectralWindowSize values.length) (i + 1)) ∧
    ((rollingWindow values (spectralWindowSize values.length) i).length < 32 →
        (compute_spectral_features pw values rate).getD i (0, 0) = (0, 0)) ∧
    (32 ≤ (rollingWindow values (spectralWindowSize values.length) i).length →
        ∃ k, 0 < k ∧
          k < (pw (rollingWindow values (spectralWindowSize values.length) i)).length ∧
          ((compute_spectral_features pw values rate).getD i (0, 0)).2
            = (k : ℚ) * (rate : ℚ)
              / ((rollingWindow values (spectralWindowSize values.length) i).length : ℚ) ∧
          ∀ m, 0 < m →
            m < (pw (rollingWindow values (spectralWindowSize values.length) i)).length →
            (pw (rollingWindow values (spectralWindowSize values.length) i)).getD m 0
              ≤ (pw (rollingWindow values (spectralWindowSize values.length) i)).getD k 0) := by
  have hcsf : (compute_spectral_features pw values rate).getD i (0, 0)
      = spectralFeaturesAt pw values rate i := by
    unfold compute_spectral_features
    rw [List.getD_eq_getElem _ _ (by rw [List.length_map, List.length_range]; exact hi),
      List.getElem_map, List.getElem_range]
  have htake : (values.take (i + 1)).length = i + 1 := by
    rw [List.length_take]
    omega
  have hwlen : (rollingWindow values (spectralWindowSize values.length) i).length
      = min (spectralWindowSize values.length) (i + 1) := by
    unfold rollingWindow
    rw [List.length_drop, htake]
    omega
  refine ⟨⟨?_, hwlen⟩, ?_, ?_⟩
  · unfold rollingWindow
    congr 1
    omega
  · intro hlt
    rw [hcsf]
    unfold spectralFeaturesAt
    rw [if_neg (by omega)]
  · intro hge
    have hplen := hpw (rollingWindow values (spectralWindowSize values.length) i)
    have hppos : 0 < (pw (rollingWindow values (spectralWindowSize values.length) i)).length := by
      omega
    have hdlen : ((pw (rollingWindow values (spectralWindowSize values.length) i)).drop 1).length
        = (pw (rollingWindow values (spectralWindowSize values.length) i)).length - 1 := by
      rw [List.length_drop]
    have hdne : (pw (rollingWindow values (spectralWindowSize values.length) i)).drop 1 ≠ [] := by
      intro hc
      rw [← List.length_eq_zero] at hc
      omega
    have ham := argmaxIdx_lt_length _ hdne
    refine ⟨argmaxIdx ((pw (rollingWindow values (spectralWindowSize values.length) i)).drop 1) + 1,
      Nat.succ_pos _, by omega, ?_, ?_⟩
    · rw [hcsf]
      unfold spectralFeaturesAt
      rw [if_pos hge, if_pos hppos]
      show (rfftfreqs (rollingWindow values (spectralWindowSize values.length) i).length rate).getD
          (argmaxIdx ((pw (rollingWindow values (spectralWindowSize values.length) i)).drop 1) + 1) 0 = _
      unfold rfftfreqs
      rw [List.getD_eq_getElem _ _ (by rw [List.length_map, List.length_range]; omega),
        List.getElem_map, List.getElem_range]
    · intro m hm0 hmlen
      rw [← getD_drop_one _ m hm0,
        ← getD_drop_one (pw (rollingWindow values (spectralWindowSize values.length) i)) _
          (Nat.succ_pos _)]
      try simp only [Nat.add_sub_cancel, Nat.succ_sub_one]
      rw [getD_argmaxIdx _ hdne]
      exact le_maxList_mem _ _ (getD_mem_of_lt (by omega))

/-- A concrete power spectrum obeying the rFFT length law. -/
def pw0 : List ℚ → List ℚ := fun w => List.replicate (w.length / 2 + 1) 0

/-- A 330-sample channel, long enough for a 33-sample spectral buffer. -/
def vals0 : List ℚ := List.replicate 330 0

theorem c7_spectral_contract_witness :
    ((∀ w : List ℚ, (pw0 w).length = w.length / 2 + 1) ∧ 329 < vals0.length) ∧
    ((rollingWindow vals0 (spectralWindowSize vals0.length) 329
        = (vals0.take (329 + 1)).drop
            ((329 + 1) - min (spectralWindowSize vals0.length) (329 + 1)) ∧
      (rollingWindow vals0 (spectralWindowSize vals0.length) 329).length
        = min (spectralWindowSize vals0.length) (329 + 1)) ∧
     ((rollingWindow vals0 (spectralWindowSize vals0.length) 329).length < 32 →
        (compute_spectral_features pw0 vals0 1000).getD 329 (0, 0) = (0, 0)) ∧
     (32 ≤ (rollingWindow vals0 (spectralWindowSize vals0.length) 329).length →
        ∃ k, 0 < k ∧
          k < (pw0 (rollingWindow vals0 (spectralWindowSize vals0.length) 329)).length ∧
          ((compute_spectral_features pw0 vals0 1000).getD 329 (0, 0)).2
            = (k : ℚ) * ((1000 : ℕ) : ℚ)
              / ((rollingWindow vals0 (spectralWindowSize vals0.length) 329).length : ℚ) ∧
          ∀ m, 0 < m →
            m < (pw0 (rollingWindow vals0 (spectralWindowSize vals0.length) 329)).length →
            (pw0 (rollingWindow vals0 (spectralWindowSize vals0.length) 329)).getD m 0
              ≤ (pw0 (rollingWindow vals0 (spectralWindowSize vals0.length) 329)).getD k 0)) :=
  ⟨⟨fun w => by simp only [pw0, List.length_replicate],
    by simp only [vals0, List.length_replicate]; norm_num⟩,
    c7_spectral_contract pw0 (fun w => by simp only [pw0, List.length_replicate]) vals0 1000 329
      (by simp only [vals0, List.length_replicate]; norm_num)⟩

/-! ## calibrate.py : isotonic_calibrate

`sklearn.isotonic.IsotonicRegression(out_of_bounds="clip").fit_transform`
modelled from its documented algorithm: lexsort the (score, label)
pairs by score (labels as secondary key), average labels over runs of
equal scores (`_make_unique`), run pool-adjacent-violators over the
averaged values, and evaluate the resulting piecewise-linear monotone
step map (clipping outside the fitted range) at the original scores. -/

/-- `np.lexsort((y, X))` order: by score, ties by label. -/
def lexLe (a b : ℚ × ℚ) : Bool :=
  decide (a.1 < b.1 ∨ (a.1 = b.1 ∧ a.2 ≤ b.2))

/-- `_make_unique`, continuing a run of x-values with accumulated label
sum `sy` and weight `w`: emits one `(x, mean label, weight)` triple per
distinct score. -/
def makeUniqueAux : List (ℚ × ℚ) → ℚ → ℚ → ℚ → List (ℚ × ℚ × ℚ)
  | [], x, sy, w => [(x, sy / w, w)]
  | (x2, y2) :: rest, x, sy, w =>
      if x2 = x then makeUniqueAux rest x (sy + y2) (w + 1)
      else (x, sy / w, w) :: makeUniqueAux rest x2 y2 1

def makeUnique : List (ℚ × ℚ) → List (ℚ × ℚ × ℚ)
  | [] => []
  | (x, y) :: rest => makeUniqueAux rest x y 1

/-- A pooled PAVA block: weighted sum, total weight, and the number of
unique points it covers. -/
structure PBlock where
  sum : ℚ
  w : ℚ
  cnt : ℕ
deriving DecidableEq

def blockMean (b : PBlock) : ℚ := b.sum / b.w

/-- Push one block onto the PAVA stack (head = most recent), pooling
while it violates monotonicity against the top block. -/
def pavaPush : List PBlock → PBlock → List PBlock
  | [], b => [b]
  | t :: rest, b =>
      if blockMean b < blockMean t then
        pavaPush rest ⟨t.sum + b.sum, t.w + b.w, t.cnt + b.cnt⟩
      else b :: t :: rest

/-- Pool-adjacent-violators over the (mean, weight) sequence. -/
def pavaBlocks (l : List (ℚ × ℚ)) : List PBlock :=
  (l.foldl (fun s yw => pavaPush s ⟨yw.1 * yw.2, yw.2, 1⟩) []).reverse

/-- Expand the blocks back to one fitted value per unique point. -/
def expandBlocks (bs : List PBlock) : List ℚ :=
  bs.flatMap (fun b => List.replicate b.cnt (blockMean b))

/-- The fitted `(X_thresholds_, y_thresholds_)` table. -/
def isotonicFit (uniq : List (ℚ × ℚ × ℚ)) : List (ℚ × ℚ) :=
  (uniq.map (fun u => u.1)).zip
    (expandBlocks (pavaBlocks (uniq.map (fun u => u.2))))

/-- `transform`: clip to the fitted range, then `np.interp` over the
breakpoint table. -/
def interpAt : List (ℚ × ℚ) → ℚ → ℚ
  | [], _ => 0
  | [(_, y1)], _ => y1
  | (x1, y1) :: (x2, y2) :: rest, t =>
      if t ≤ x1 then y1
      else if t ≤ x2 then y1 + (y2 - y1) * (t - x1) / (x2 - x1)
      else interpAt ((x2, y2) :: rest) t

/-- `isotonic_calibrate` from `calibrate.py`: the calibrated scores of
`IsotonicRegression(out_of_bounds="clip").fit_transform(scores, y_true)`. -/
def isotonic_calibrate (scores : List ℚ) (y_true : List ℤ) : List ℚ :=
  let pairs := (scores.zip (y_true.map (fun y => (y : ℚ)))).mergeSort lexLe
  let table := isotonicFit (makeUnique pairs)
  scores.map (fun s => interpAt table s)

/-- A concrete all-ones power spectrum obeying the rFFT length law. -/
def pwOne : List ℚ → List ℚ := fun w => List.replicate (w.length / 2 + 1) 1

/-- C7 failing input: two concatenated 320-row shots (shot A all `0`,
shot B all `1`).  The engine sizes its buffer by the whole flat column —
`min(1000, 640 // 10) = 64` — so at shot B's first row (index 320) the
buffer holds 63 samples of shot A plus one of B, and it changes when
shot A's values are mutated to `2`; with 64 ≥ 32 samples buffered the
row gets a fully computed spectrum (energy 33 under the all-ones power
spectrum) instead of the `(0, 0)` that a per-shot restart — one buffered
sample, below the 32-sample minimum — requires. -/
theorem c7_spectral_cross_shot :
    rollingWindow (List.replicate 320 (0 : ℚ) ++ List.replicate 320 1)
        (spectralWindowSize (List.replicate 320 (0 : ℚ) ++ List.replicate 320 1).length) 320
      = List.replicate 63 0 ++ [1] ∧
    rollingWindow (List.replicate 320 (2 : ℚ) ++ List.replicate 320 1)
        (spectralWindowSize (List.replicate 320 (2 : ℚ) ++ List.replicate 320 1).length) 320
      = List.replicate 63 2 ++ [1] ∧
    ((compute_spectral_features pwOne
        (List.replicate 320 (0 : ℚ) ++ List.replicate 320 1) 1000).getD 320 (0, 0)).1 = 33 ∧
    (compute_spectral_features pwOne
        (List.replicate 320 (0 : ℚ) ++ List.replicate 320 1) 1000).getD 320 (0, 0) ≠ (0, 0) := by
  have h1 : rollingWindow (List.replicate 320 (0 : ℚ) ++ List.replicate 320 1)
      (spectralWindowSize (List.replicate 320 (0 : ℚ) ++ List.replicate 320 1).length) 320
      = List.replicate 63 0 ++ [1] := by
    rw [rollingWindow, spectralWindowSize]
    norm_num [List.take_append_eq_append_take, List.drop_append_eq_append_drop,
      List.take_replicate, List.drop_replicate, List.replicate_one]
  have h2 : rollingWindow (List.replicate 320 (2 : ℚ) ++ List.replicate 320 1)
      (spectralWindowSize (List.replicate 320 (2 : ℚ) ++ List.replicate 320 1).length) 320
      = List.replicate 63 2 ++ [1] := by
    rw [rollingWindow, spectralWindowSize]
    norm_num [List.take_append_eq_append_take, List.drop_append_eq_append_drop,
      List.take_replicate, List.drop_replicate, List.replicate_one]
  have hget : (compute_spectral_features pwOne
      (List.replicate 320 (0 : ℚ) ++ List.replicate 320 1) 1000).getD 320 (0, 0)
      = spectralFeaturesAt pwOne (List.replicate 320 (0 : ℚ) ++ List.replicate 320 1) 1000 320 := by
    unfold compute_spectral_features
    rw [List.getD_eq_getElem _ _ (by
        simp only [List.length_map, List.length_range, List.length_append,
          List.length_replicate]
        norm_num),
      List.getElem_map, List.getElem_range]
  have h3 : ((compute_spectral_features pwOne
      (List.replicate 320 (0 : ℚ) ++ List.replicate 320 1) 1000).getD 320 (0, 0)).1 = 33 := by
    rw [hget]
    simp only [spectralFeaturesAt]
    rw [h1]
    norm_num [pwOne, List.sum_replicate]
  refine ⟨h1, h2, h3, ?_⟩
  intro hc
  rw [hc] at h3
  norm_num at h3

theorem head_le_interpAt (rest : List (ℚ × ℚ)) (x1 y1 t : ℚ)
    (hx : ((x1, y1) :: rest).Chain' (fun p q => p.1 < q.1))
    (hy : ((x1, y1) :: rest).Chain' (fun p q => p.2 ≤ q.2)) :
    y1 ≤ interpAt ((x1, y1) :: rest) t := by
  induction rest generalizing x1 y1 with
  | nil => simp [interpAt]
  | cons p2 rest2 ih =>
      obtain ⟨x2, y2⟩ := p2
      have hx12 : x1 < x2 := (List.chain'_cons.mp hx).1
      have hy12 : y1 ≤ y2 := (List.chain'_cons.mp hy).1
      rw [interpAt]
      by_cases ht1 : t ≤ x1
      · rw [if_pos ht1]
      · rw [if_neg ht1]
        by_cases ht2 : t ≤ x2
        · rw [if_pos ht2]
          have h1 : 0 ≤ y2 - y1 := by linarith
          have h2 : 0 ≤ t - x1 := by push_neg at ht1; linarith
          have h3 : 0 < x2 - x1 := by linarith
          have : 0 ≤ (y2 - y1) * (t - x1) / (x2 - x1) :=
            div_nonneg (mul_nonneg h1 h2) (le_of_lt h3)
          linarith
        · rw [if_neg ht2]
          exact le_trans hy12
            (ih x2 y2 (List.chain'_cons.mp hx).2 (List.chain'_cons.mp hy).2)

theorem seg_val_le (x1 y1 x2 y2 t : ℚ) (hx12 : x1 < x2) (hy12 : y1 ≤ y2) (ht2 : t ≤ x2) :
    y1 + (y2 - y1) * (t - x1) / (x2 - x1) ≤ y2 := by
  have h3 : 0 < x2 - x1 := by linarith
  have h1 : 0 ≤ y2 - y1 := by linarith
  have hmul : (y2 - y1) * (t - x1) ≤ (y2 - y1) * (x2 - x1) :=
    mul_le_mul_of_nonneg_left (by linarith) h1
  have hdiv : (y2 - y1) * (t - x1) / (x2 - x1) ≤ (y2 - y1) * (x2 - x1) / (x2 - x1) :=
    (div_le_div_iff_of_pos_right h3).mpr hmul
  rw [mul_div_cancel_right₀ _ (ne_of_gt h3)] at hdiv
  linarith

theorem interpAt_mono (table : List (ℚ × ℚ))
    (hx : table.Chain' (fun p q => p.1 < q.1))
    (hy : table.Chain' (fun p q => p.2 ≤ q.2))
    (s t : ℚ) (hst : s ≤ t) :
    interpAt table s ≤ interpAt table t := by
  induction table with
  | nil => simp [interpAt]
  | cons p1 rest ih =>
      obtain ⟨x1, y1⟩ := p1
      cases rest with
      | nil => simp [interpAt]
      | cons p2 rest2 =>
          obtain ⟨x2, y2⟩ := p2
          have hx12 : x1 < x2 := (List.chain'_cons.mp hx).1
          have hy12 : y1 ≤ y2 := (List.chain'_cons.mp hy).1
          have hxt : ((x2, y2) :: rest2).Chain' (fun p q => p.1 < q.1) :=
            (List.chain'_cons.mp hx).2
          have hyt : ((x2, y2) :: rest2).Chain' (fun p q => p.2 ≤ q.2) :=
            (List.chain'_cons.mp hy).2
          by_cases hs1 : s ≤ x1
          · rw [show interpAt ((x1, y1) :: (x2, y2) :: rest2) s = y1 by
              rw [interpAt, if_pos hs1]]
            exact head_le_interpAt _ x1 y1 t hx hy
          · have ht1 : ¬ t ≤ x1 := fun hc => hs1 (le_trans hst hc)
            rw [interpAt, if_neg hs1]
            rw [show interpAt ((x1, y1) :: (x2, y2) :: rest2) t
                = if t ≤ x2 then y1 + (y2 - y1) * (t - x1) / (x2 - x1)
                  else interpAt ((x2, y2) :: rest2) t by
              rw [interpAt, if_neg ht1]]
            by_cases hs2 : s ≤ x2
            · rw [if_pos hs2]
              by_cases ht2 : t ≤ x2
              · rw [if_pos ht2]
                have h1 : 0 ≤ y2 - y1 := by linarith
                have h3 : 0 < x2 - x1 := by linarith
                have hmul : (y2 - y1) * (s - x1) ≤ (y2 - y1) * (t - x1) :=
                  mul_le_mul_of_nonneg_left (by linarith) h1
                have := (div_le_div_iff_of_pos_right h3).mpr hmul
                linarith
              · rw [if_neg ht2]
                refine le_trans (seg_val_le x1 y1 x2 y2 s hx12 hy12 hs2) ?_
                exact head_le_interpAt _ x2 y2 t hxt hyt
            · have ht2 : ¬ t ≤ x2 := fun hc => hs2 (le_trans hst hc)
              rw [if_neg hs2, if_neg ht2]
              exact ih hxt hyt

theorem makeUniqueAux_head (rest : List (ℚ × ℚ)) (x sy w : ℚ) :
    ∃ v ww tl, makeUniqueAux rest x sy w = (x, v, ww) :: tl := by
  induction rest generalizing x sy w with
  | nil => exact ⟨sy / w, w, [], rfl⟩
  | cons p rest2 ih =>
      obtain ⟨x2, y2⟩ := p
      by_cases hx2 : x2 = x
      · rw [makeUniqueAux, if_pos hx2]
        exact ih x (sy + y2) (w + 1)
      · rw [makeUniqueAux, if_neg hx2]
        exact ⟨sy / w, w, makeUniqueAux rest2 x2 y2 1, rfl⟩

theorem makeUniqueAux_chain (rest : List (ℚ × ℚ)) (x sy w : ℚ)
    (hle : ∀ p ∈ rest, x ≤ p.1)
    (hp : rest.Pairwise (fun a b => a.1 ≤ b.1)) :
    (makeUniqueAux rest x sy w).Chain' (fun a b => a.1 < b.1) := by
  induction rest generalizing x sy w with
  | nil => simp [makeUniqueAux]
  | cons p rest2 ih =>
      obtain ⟨x2, y2⟩ := p
      have hle2 : ∀ q ∈ rest2, x2 ≤ q.1 := fun q hq =>
        (List.pairwise_cons.mp hp).1 q hq
      have hp2 : rest2.Pairwise (fun a b => a.1 ≤ b.1) := (List.pairwise_cons.mp hp).2
      by_cases hx2 : x2 = x
      · rw [makeUniqueAux, if_pos hx2]
        refine ih x (sy + y2) (w + 1) ?_ hp2
        intro q hq
        rw [← hx2]
        exact hle2 q hq
      · rw [makeUniqueAux, if_neg hx2]
        have hxlt : x < x2 :=
          lt_of_le_of_ne (hle (x2, y2) (List.mem_cons_self _ _)) (Ne.symm hx2)
        rw [List.chain'_cons']
        constructor
        · intro h hh
          obtain ⟨v, ww, tl, heq⟩ := makeUniqueAux_head rest2 x2 y2 1
          rw [heq] at hh
          simp at hh
          rw [← hh]
          exact hxlt
        · exact ih x2 y2 1 hle2 hp2

theorem makeUnique_chain (pairs : List (ℚ × ℚ))
    (hp : pairs.Pairwise (fun a b => a.1 ≤ b.1)) :
    (makeUnique pairs).Chain' (fun a b => a.1 < b.1) := by
  cases pairs with
  | nil => simp [makeUnique]
  | cons p rest =>
      obtain ⟨x, y⟩ := p
      rw [makeUnique]
      exact makeUniqueAux_chain rest x y 1
        (fun q hq => (List.pairwise_cons.mp hp).1 q hq)
        (List.pairwise_cons.mp hp).2

theorem pavaPush_chain (stack : List PBlock) (b : PBlock)
    (h : stack.Chain' (fun a c => blockMean c ≤ blockMean a)) :
    (pavaPush stack b).Chain' (fun a c => blockMean c ≤ blockMean a) := by
  induction stack generalizing b with
  | nil => simp [pavaPush]
  | cons t rest ih =>
      rw [pavaPush]
      by_cases hm : blockMean b < blockMean t
      · rw [if_pos hm]
        exact ih _ (List.chain'_cons'.mp h).2
      · rw [if_neg hm]
        rw [List.chain'_cons']
        refine ⟨?_, h⟩
        intro q hq
        simp at hq
        rw [← hq]
        exact le_of_not_lt hm

theorem foldl_pavaPush_chain (l : List (ℚ × ℚ)) (stack : List PBlock)
    (h : stack.Chain' (fun a c => blockMean c ≤ blockMean a)) :
    (l.foldl (fun s yw => pavaPush s ⟨yw.1 * yw.2, yw.2, 1⟩) stack).Chain'
      (fun a c => blockMean c ≤ blockMean a) := by
  induction l generalizing stack with
  | nil => exact h
  | cons yw rest ih =>
      simp only [List.foldl_cons]
      exact ih _ (pavaPush_chain stack _ h)

theorem pavaBlocks_chain (l : List (ℚ × ℚ)) :
    (pavaBlocks l).Chain' (fun a c => blockMean a ≤ blockMean c) := by
  unfold pavaBlocks
  rw [List.chain'_reverse]
  exact foldl_pavaPush_chain l [] (by simp)

theorem mem_expandBlocks (bs : List PBlock) (v : ℚ) (h : v ∈ expandBlocks bs) :
    ∃ b ∈ bs, v = blockMean b := by
  unfold expandBlocks at h
  rw [List.mem_flatMap] at h
  obtain ⟨b, hb, hv⟩ := h
  exact ⟨b, hb, (List.eq_of_mem_replicate hv)⟩

theorem chain'_replicate_le (n : ℕ) (a : ℚ) : (List.replicate n a).Chain' (· ≤ ·) := by
  induction n with
  | zero => simp
  | succ m ih =>
      rw [List.replicate_succ, List.chain'_cons']
      refine ⟨?_, ih⟩
      intro h hh
      have := List.mem_of_mem_head? hh
      rw [List.eq_of_mem_replicate this]

theorem expandBlocks_chain (bs : List PBlock)
    (h : bs.Pairwise (fun a c => blockMean a ≤ blockMean c)) :
    (expandBlocks bs).Chain' (· ≤ ·) := by
  induction bs with
  | nil => simp [expandBlocks]
  | cons b rest ih =>
      have hexp : expandBlocks (b :: rest)
          = List.replicate b.cnt (blockMean b) ++ expandBlocks rest := by
        unfold expandBlocks
        rw [List.flatMap_cons]
      rw [hexp, List.chain'_append]
      refine ⟨chain'_replicate_le _ _, ih (List.pairwise_cons.mp h).2, ?_⟩
      intro u hu v hv
      have hu2 : u ∈ List.replicate b.cnt (blockMean b) := by
        obtain ⟨hne, hux⟩ := List.mem_getLast?_eq_getLast hu
        rw [hux]
        exact List.getLast_mem hne
      have hueq : u = blockMean b := List.eq_of_mem_replicate hu2
      have hv2 := List.mem_of_mem_head? hv
      obtain ⟨b', hb', hveq⟩ := mem_expandBlocks rest v hv2
      rw [hueq, hveq]
      exact (List.pairwise_cons.mp h).1 b' hb'

theorem chain'_zip_left (xs ys : List ℚ) (h : xs.Chain' (· < ·)) :
    (xs.zip ys).Chain' (fun p q : ℚ × ℚ => p.1 < q.1) := by
  induction xs generalizing ys with
  | nil => simp
  | cons x xs' ih =>
      cases ys with
      | nil => simp
      | cons y ys' =>
          rw [List.zip_cons_cons, List.chain'_cons']
          refine ⟨?_, ih ys' (List.chain'_cons'.mp h).2⟩
          intro q hq
          have hq2 := List.mem_of_mem_head? hq
          cases xs' with
          | nil => simp at hq2
          | cons x2 xs2 =>
              cases ys' with
              | nil => simp at hq2
              | cons y2 ys2 =>
                  rw [List.zip_cons_cons] at hq
                  simp at hq
                  rw [← hq]
                  exact (List.chain'_cons'.mp h).1 x2 (by simp)

theorem chain'_zip_right (xs ys : List ℚ) (h : ys.Chain' (· ≤ ·)) :
    (xs.zip ys).Chain' (fun p q : ℚ × ℚ => p.2 ≤ q.2) := by
  induction xs generalizing ys with
  | nil => simp
  | cons x xs' ih =>
      cases ys with
      | nil => simp
      | cons y ys' =>
          rw [List.zip_cons_cons, List.chain'_cons']
          refine ⟨?_, ih ys' (List.chain'_cons'.mp h).2⟩
          intro q hq
          have hq2 := List.mem_of_mem_head? hq
          cases xs' with
          | nil => simp at hq2
          | cons x2 xs2 =>
              cases ys' with
              | nil => simp at hq2
              | cons y2 ys2 =>
                  rw [List.zip_cons_cons] at hq
                  simp at hq
                  rw [← hq]
                  exact (List.chain'_cons'.mp h).1 y2 (by simp)

theorem lexLe_trans (a b c : ℚ × ℚ) (hab : lexLe a b = true) (hbc : lexLe b c = true) :
    lexLe a c = true := by
  simp only [lexLe, decide_eq_true_eq] at *
  rcases hab with h | h <;> rcases hbc with h2 | h2
  · exact Or.inl (lt_trans h h2)
  · exact Or.inl (lt_of_lt_of_le h (le_of_eq h2.1))
  · exact Or.inl (lt_of_le_of_lt (le_of_eq h.1) h2)
  · exact Or.inr ⟨h.1.trans h2.1, le_trans h.2 h2.2⟩

theorem lexLe_total (a b : ℚ × ℚ) : (lexLe a b || lexLe b a) = true := by
  simp only [lexLe, Bool.or_eq_true, decide_eq_true_eq]
  rcases lt_trichotomy a.1 b.1 with h | h | h
  · exact Or.inl (Or.inl h)
  · rcases le_total a.2 b.2 with h2 | h2
    · exact Or.inl (Or.inr ⟨h, h2⟩)
    · exact Or.inr (Or.inr ⟨h.symm, h2⟩)
  · exact Or.inr (Or.inl h)

/-- C5: isotonic calibration is monotone — if the raw score at position
`i` is at most the raw score at position `j`, then the calibrated output
at `i` is at most the calibrated output at `j`. -/
theorem c5_isotonic_monotonicity (scores : List ℚ) (y_true : List ℤ) (i j : ℕ)
    (hi : i < scores.length) (hj : j < scores.length)
    (hij : scores.getD i 0 ≤ scores.getD j 0) :
    (isotonic_calibrate scores y_true).getD i 0
      ≤ (isotonic_calibrate scores y_true).getD j 0 := by
  have hpairs : ((scores.zip (y_true.map (fun y => (y : ℚ)))).mergeSort lexLe).Pairwise
      (fun a b => a.1 ≤ b.1) := by
    refine (List.sorted_mergeSort lexLe_trans lexLe_total
      (scores.zip (y_true.map (fun y => (y : ℚ))))).imp ?_
    intro a b hab
    rcases of_decide_eq_true hab with h | h
    · exact le_of_lt h
    · exact le_of_eq h.1
  have hxchain : (isotonicFit (makeUnique
      ((scores.zip (y_true.map (fun y => (y : ℚ)))).mergeSort lexLe))).Chain'
      (fun p q => p.1 < q.1) := by
    unfold isotonicFit
    apply chain'_zip_left
    rw [List.chain'_map]
    exact makeUnique_chain _ hpairs
  have hychain : (isotonicFit (makeUnique
      ((scores.zip (y_true.map (fun y => (y : ℚ)))).mergeSort lexLe))).Chain'
      (fun p q => p.2 ≤ q.2) := by
    unfold isotonicFit
    apply chain'_zip_right
    apply expandBlocks_chain
    haveI : IsTrans PBlock (fun a c => blockMean a ≤ blockMean c) :=
      ⟨fun a b c => le_trans⟩
    exact List.chain'_iff_pairwise.mp (pavaBlocks_chain _)
  have hgetD : ∀ k, k < scores.length →
      (isotonic_calibrate scores y_true).getD k 0
        = interpAt (isotonicFit (makeUnique
            ((scores.zip (y_true.map (fun y => (y : ℚ)))).mergeSort lexLe)))
            (scores.getD k 0) := by
    intro k hk
    simp only [isotonic_calibrate]
    rw [List.getD_eq_getElem _ _ (by rw [List.length_map]; exact hk), List.getElem_map,
      List.getD_eq_getElem _ _ hk]
  rw [hgetD i hi, hgetD j hj]
  exact interpAt_mono _ hxchain hychain _ _ hij

theorem c5_isotonic_monotonicity_witness :
    ((0 : ℕ) < ([0, 1] : List ℚ).length ∧ (1 : ℕ) < ([0, 1] : List ℚ).length ∧
      ([0, 1] : List ℚ).getD 0 0 ≤ ([0, 1] : List ℚ).getD 1 0) ∧
    (isotonic_calibrate [0, 1] [0, 1]).getD 0 0
      ≤ (isotonic_calibrate [0, 1] [0, 1]).getD 1 0 :=
  ⟨⟨by decide, by decide, by decide⟩,
    c5_isotonic_monotonicity [0, 1] [0, 1] 0 1 (by decide) (by decide) (by decide)⟩

end FusionGuard
